/-
Verification of the sima discrete-event simulation engine.

The development shallowly embeds the Go sources:
  - core/eventQueue.go and internal/core (identical heap algorithm), together
    with the parts of Go's container/heap (Push/Pop/up/down) that they invoke;
  - core/timeMachine.go (the older, non-acknowledging driver) and the sima
    package's timeMachine (the acknowledging driver), which share their
    command semantics and Step but differ where noted.

Go float64 values are modelled as rationals (all properties proved here are
order/arithmetic facts preserved by the embedding), real-time instants
(time.Time) as integer milliseconds, and the opaque callbacks func() as
schedule scripts: the only interaction a callback has with the machine is a
finite sequence of tm.Schedule calls, which is exactly what an Act records.
-/
import Mathlib

set_option maxHeartbeats 1000000

namespace Sima

/-- A callback, modelled as the finite sequence of tm.Schedule(dt, f) calls it
performs when executed; Act.nil does nothing. -/
inductive Act where
  | nil : Act
  | schedule (dt : ℚ) (f : Act) (rest : Act) : Act
deriving DecidableEq

/-- Go struct Event (eventQueue.go): a scheduled time (float64, ms) and a
callback. -/
structure Event where
  t : ℚ
  f : Act
deriving DecidableEq

instance : Inhabited Event := ⟨⟨0, .nil⟩⟩

/-- Go type EventQueue []*Event. -/
abbrev EventQueue := Array Event

/-- Total array access; every access performed by the Go code is in bounds,
which the size lemmas below establish. -/
def getEv (a : EventQueue) (k : ℕ) : Event := a[k]?.getD default

/-- Parent index in the implicit binary heap, as computed by Go's
container/heap: i := (j - 1) / 2. -/
def parent (j : ℕ) : ℕ := (j - 1) / 2

theorem parent_lt {j : ℕ} (h : 0 < j) : parent j < j :=
  Nat.lt_of_le_of_lt (Nat.div_le_self _ _) (Nat.sub_lt h Nat.one_pos)

theorem parent_zero : parent 0 = 0 := rfl

/-- Go container/heap func up(h, j): sift the element at index j up.
The loop condition is i == j || !h.Less(j, i), with Less from eventQueue.go
comparing the events' times with <. -/
def up (a : EventQueue) (j : ℕ) : EventQueue :=
  if parent j = j ∨ ¬ (getEv a j).t < (getEv a (parent j)).t then a
  else up (a.swap! (parent j) j) (parent j)
termination_by j
decreasing_by
  rename_i h
  rcases Nat.eq_zero_or_pos j with h0 | h0
  · exact absurd (Or.inl (by simp [h0, parent_zero])) h
  · exact parent_lt h0

/-- The index j selected inside Go's down loop: j1 = 2i+1, promoted to
j2 = 2i+1+1 when j2 < n and Less(j2, j1). -/
def minChild (a : EventQueue) (i n : ℕ) : ℕ :=
  if 2 * i + 2 < n ∧ (getEv a (2 * i + 2)).t < (getEv a (2 * i + 1)).t
  then 2 * i + 2 else 2 * i + 1

theorem lt_minChild (a : EventQueue) (i n : ℕ) : i < minChild a i n := by
  unfold minChild
  split <;> omega

theorem minChild_lt {a : EventQueue} {i n : ℕ} (h : 2 * i + 1 < n) :
    minChild a i n < n := by
  unfold minChild
  split
  · rename_i hc
    exact hc.1
  · exact h

theorem parent_minChild (a : EventQueue) (i n : ℕ) :
    parent (minChild a i n) = i := by
  unfold minChild parent
  split <;> omega

theorem minChild_le_left (a : EventQueue) (i n : ℕ) :
    (getEv a (minChild a i n)).t ≤ (getEv a (2 * i + 1)).t := by
  unfold minChild
  split
  · rename_i hc
    exact le_of_lt hc.2
  · exact le_refl _

theorem minChild_le_right {a : EventQueue} {i n : ℕ} (h : 2 * i + 2 < n) :
    (getEv a (minChild a i n)).t ≤ (getEv a (2 * i + 2)).t := by
  unfold minChild
  split
  · exact le_refl _
  · rename_i hc
    rcases not_and_or.mp hc with h2 | h2
    · exact absurd h h2
    · exact le_of_not_lt h2

/-- Go container/heap func down(h, i0, n): sift the element at index i down
within the first n entries.  The Go j1 < 0 overflow check cannot fire over ℕ,
and the boolean result i > i0 is unused by heap.Pop and dropped here. -/
def down (a : EventQueue) (i n : ℕ) : EventQueue :=
  if h1 : 2 * i + 1 < n then
    if (getEv a (minChild a i n)).t < (getEv a i).t then
      down (a.swap! i (minChild a i n)) (minChild a i n) n
    else a
  else a
termination_by n - i
decreasing_by
  exact Nat.sub_lt_sub_left (Nat.lt_trans (lt_minChild a i n) (minChild_lt h1))
    (lt_minChild a i n)

/-- Go EventQueue.add = heap.Push: append (EventQueue.Push) then sift up from
the last index. -/
def add (a : EventQueue) (e : Event) : EventQueue := up (a.push e) a.size

/-- Go EventQueue.next: nil (None) on the empty queue, otherwise heap.Pop:
swap the root with the last element, sift the new root down within the first
n = len-1 entries, then remove and return the last element. -/
def next (a : EventQueue) : Option (Event × EventQueue) :=
  if a.size = 0 then none
  else
    let n := a.size - 1
    let b := down (a.swap! 0 n) 0 n
    some (getEv b n, b.pop)

/-- Go EventQueue.nextT: the root's time, or a None standing for the
(0, false) return on the empty queue. -/
def nextT (a : EventQueue) : Option ℚ :=
  if 0 < a.size then some (getEv a 0).t else none

/-- Go NewEventQueue: an empty slice (heap.Init is a no-op on it). -/
def emptyQueue : EventQueue := #[]

/-- The binary min-heap ordering on the first n entries: every non-root entry
is at least its parent. -/
def IsHeapN (n : ℕ) (a : EventQueue) : Prop :=
  ∀ k, k < n → 0 < k → (getEv a (parent k)).t ≤ (getEv a k).t

/-- The heap ordering on the whole array. -/
def IsHeap (a : EventQueue) : Prop := IsHeapN a.size a

/-- The multiset of events stored in a queue. -/
def contents (a : EventQueue) : Multiset Event := (a.toList : Multiset Event)

/-- Intermediate invariant of the sift-up loop with hole j: every heap edge
except the one into j holds, and the hole's parent is below the hole's
children. -/
def UpInv (a : EventQueue) (j : ℕ) : Prop :=
  (∀ k, k < a.size → 0 < k → k ≠ j → (getEv a (parent k)).t ≤ (getEv a k).t) ∧
  (0 < j → ∀ c, c < a.size → parent c = j → (getEv a (parent j)).t ≤ (getEv a c).t)

/-- Intermediate invariant of the sift-down loop with hole i over the first n
entries: every heap edge not leaving i holds, and the hole's parent is below
the hole's children. -/
def DownInv (a : EventQueue) (i n : ℕ) : Prop :=
  (∀ k, k < n → 0 < k → parent k ≠ i → (getEv a (parent k)).t ≤ (getEv a k).t) ∧
  (0 < i → ∀ c, c < n → parent c = i → (getEv a (parent i)).t ≤ (getEv a c).t)

/-- Queues reachable from the empty queue by the public operations add and
next. -/
inductive Reachable : EventQueue → Prop where
  | empty : Reachable emptyQueue
  | add {q : EventQueue} (e : Event) : Reachable q → Reachable (add q e)
  | next {q q' : EventQueue} {e : Event} :
      Reachable q → next q = some (e, q') → Reachable q'

theorem getEv_eq_getElem {a : EventQueue} {k : ℕ} (h : k < a.size) :
    getEv a k = a[k] := by
  simp [getEv, getElem?_pos a k h]

theorem size_swapBang (a : EventQueue) (i j : ℕ) :
    (a.swap! i j).size = a.size := by
  unfold Array.swap!
  split
  · split
    · simp
    · rfl
  · rfl

theorem getEv_swapBang {a : EventQueue} {i j : ℕ} (hi : i < a.size)
    (hj : j < a.size) (k : ℕ) :
    getEv (a.swap! i j) k =
      if k = i then getEv a j else if k = j then getEv a i else getEv a k := by
  have hsw : a.swap! i j = a.swap ⟨i, hi⟩ ⟨j, hj⟩ := by
    unfold Array.swap!
    rw [dif_pos hi, dif_pos hj]
  by_cases hk : k < a.size
  · rw [hsw, getEv_eq_getElem (by simpa using hk),
      Array.getElem_swap a ⟨i, hi⟩ ⟨j, hj⟩ k (by simpa using hk)]
    rcases eq_or_ne k i with h1 | h1
    · subst h1
      simp [getEv_eq_getElem hj]
    · rcases eq_or_ne k j with h2 | h2
      · subst h2
        simp [h1, getEv_eq_getElem hi]
      · simp [h1, h2, getEv_eq_getElem hk]
  · have h1 : k ≠ i := fun h => hk (h ▸ hi)
    have h2 : k ≠ j := fun h => hk (h ▸ hj)
    rw [if_neg h1, if_neg h2]
    unfold getEv
    rw [getElem?_neg a k hk,
      getElem?_neg _ k (by rw [size_swapBang]; exact hk)]

theorem getEv_push_lt {a : EventQueue} {k : ℕ} (h : k < a.size) (e : Event) :
    getEv (a.push e) k = getEv a k := by
  rw [getEv_eq_getElem (by simp; omega), getEv_eq_getElem h,
    Array.getElem_push_lt a e k h]

theorem getEv_push_eq (a : EventQueue) (e : Event) :
    getEv (a.push e) a.size = e := by
  rw [getEv_eq_getElem (by simp)]
  simp

theorem multisetSet (l : List Event) (i : ℕ) (x : Event) (h : i < l.length) :
    l[i] ::ₘ ((l.set i x : List Event) : Multiset Event) =
      x ::ₘ (l : Multiset Event) := by
  induction l generalizing i with
  | nil => exact absurd h (by simp)
  | cons a t ih =>
    cases i with
    | zero =>
      rw [List.getElem_cons_zero, List.set_cons_zero, ← Multiset.cons_coe,
        ← Multiset.cons_coe, Multiset.cons_swap]
    | succ n =>
      have hn : n < t.length := by simpa using h
      rw [List.getElem_cons_succ, List.set_cons_succ, ← Multiset.cons_coe,
        ← Multiset.cons_coe, Multiset.cons_swap, ih n hn, Multiset.cons_swap]

theorem contents_swapBang {a : EventQueue} {i j : ℕ} (hi : i < a.size)
    (hj : j < a.size) : contents (a.swap! i j) = contents a := by
  have hsw : a.swap! i j = a.swap ⟨i, hi⟩ ⟨j, hj⟩ := by
    unfold Array.swap!
    rw [dif_pos hi, dif_pos hj]
  rw [hsw]
  unfold contents
  rw [Array.toList_swap]
  have hi' : i < a.toList.length := by simpa using hi
  have hj' : j < a.toList.length := by simpa using hj
  have hjs : j < (a.toList.set i (a.get ⟨j, hj⟩)).length := by simpa using hj'
  have h1 := multisetSet (a.toList.set i (a.get ⟨j, hj⟩)) j (a.get ⟨i, hi⟩) hjs
  have h2 := multisetSet a.toList i (a.get ⟨j, hj⟩) hi'
  have hget : (a.toList.set i (a.get ⟨j, hj⟩))[j] = a.get ⟨j, hj⟩ := by
    rw [List.getElem_set]
    split
    · rfl
    · rfl
  rw [hget] at h1
  have h2' : (a.get ⟨i, hi⟩) ::ₘ (↑(a.toList.set i (a.get ⟨j, hj⟩)) : Multiset Event) =
      (a.get ⟨j, hj⟩) ::ₘ (a.toList : Multiset Event) := h2
  rw [h2'] at h1
  exact (Multiset.cons_inj_right _).mp h1

theorem contents_push (a : EventQueue) (e : Event) :
    contents (a.push e) = e ::ₘ contents a := by
  unfold contents
  rw [Array.push_toList, ← Multiset.coe_add, Multiset.coe_singleton,
    add_comm, Multiset.singleton_add]

theorem parent_eq_iff {k i : ℕ} (hk : 0 < k) :
    parent k = i ↔ k = 2 * i + 1 ∨ k = 2 * i + 2 := by
  unfold parent
  omega

theorem parent_le (j : ℕ) : parent j ≤ j := by
  unfold parent
  omega

theorem getEv_swap_fst {a : EventQueue} {i j : ℕ} (hi : i < a.size)
    (hj : j < a.size) : getEv (a.swap! i j) i = getEv a j := by
  rw [getEv_swapBang hi hj, if_pos rfl]

theorem getEv_swap_snd {a : EventQueue} {i j : ℕ} (hi : i < a.size)
    (hj : j < a.size) (hne : j ≠ i) : getEv (a.swap! i j) j = getEv a i := by
  rw [getEv_swapBang hi hj, if_neg hne, if_pos rfl]

theorem getEv_swap_other {a : EventQueue} {i j k : ℕ} (hi : i < a.size)
    (hj : j < a.size) (h1 : k ≠ i) (h2 : k ≠ j) :
    getEv (a.swap! i j) k = getEv a k := by
  rw [getEv_swapBang hi hj, if_neg h1, if_neg h2]

theorem size_up (a : EventQueue) (j : ℕ) : (up a j).size = a.size := by
  induction a, j using up.induct with
  | case1 a j h =>
    rw [up, if_pos h]
  | case2 a j h ih =>
    rw [up, if_neg h, ih, size_swapBang]

theorem contents_up (a : EventQueue) (j : ℕ) : j < a.size →
    contents (up a j) = contents a := by
  induction a, j using up.induct with
  | case1 a j h =>
    intro hj
    rw [up, if_pos h]
  | case2 a j h ih =>
    intro hj
    have hp : parent j < a.size := lt_of_le_of_lt (parent_le j) hj
    rw [up, if_neg h, ih (by rw [size_swapBang]; exact hp),
      contents_swapBang hp hj]

theorem up_heap (a : EventQueue) (j : ℕ) : j < a.size → UpInv a j →
    IsHeap (up a j) := by
  induction a, j using up.induct with
  | case1 a j h =>
    intro hj hinv
    rw [up, if_pos h]
    rcases h with h | h
    · have hj0 : j = 0 := by
        unfold parent at h
        omega
      intro k hk hk0
      exact hinv.1 k hk hk0 (by omega)
    · intro k hk hk0
      rcases eq_or_ne k j with rfl | hkj
      · exact le_of_not_lt h
      · exact hinv.1 k hk hk0 hkj
  | case2 a j h ih =>
    intro hj hinv
    have h' := h
    push_neg at h'
    obtain ⟨hne, hlt⟩ := h'
    have hj0 : 0 < j := by
      rcases Nat.eq_zero_or_pos j with rfl | h0
      · exact absurd parent_zero hne
      · exact h0
    have hij : parent j < j := parent_lt hj0
    have hi : parent j < a.size := lt_trans hij hj
    have hjne : j ≠ parent j := fun hh => hne hh.symm
    rw [up, if_neg h]
    apply ih
    · rw [size_swapBang]
      exact hi
    · constructor
      · -- every heap edge except the one into the new hole parent j
        intro k hk hk0 hki
        rw [size_swapBang] at hk
        rcases eq_or_ne k j with rfl | hkj
        · -- the swapped pair itself
          rw [getEv_swap_fst hi hk, getEv_swap_snd hi hk hjne]
          exact le_of_lt hlt
        · have hkswap : getEv (a.swap! (parent j) j) k = getEv a k :=
            getEv_swap_other hi hj hki hkj
          rcases eq_or_ne (parent k) (parent j) with hpk1 | hpk1
          · -- k is a child of the new hole, but not j: a sibling of j
            rw [hkswap, hpk1, getEv_swap_fst hi hj]
            have hedge := hinv.1 k hk hk0 hkj
            rw [hpk1] at hedge
            exact le_trans (le_of_lt hlt) hedge
          · rcases eq_or_ne (parent k) j with hpk2 | hpk2
            · -- k is a child of the old hole j
              rw [hkswap, hpk2, getEv_swap_snd hi hj hjne]
              exact hinv.2 hj0 k hk hpk2
            · -- an edge untouched by the swap
              rw [hkswap, getEv_swap_other hi hj hpk1 hpk2]
              exact hinv.1 k hk hk0 hkj
      · -- the new hole's parent is below the new hole's children
        intro hpj0 c hc hpc
        rw [size_swapBang] at hc
        have hpi : parent (parent j) < parent j := parent_lt hpj0
        have hppi : parent (parent j) ≠ parent j := ne_of_lt hpi
        have hppj : parent (parent j) ≠ j := ne_of_lt (lt_trans hpi hij)
        have hc0 : 0 < c := by
          rcases Nat.eq_zero_or_pos c with rfl | h0
          · rw [parent_zero] at hpc
            omega
          · exact h0
        have hcne : c ≠ parent j := by
          intro hcc
          rw [hcc] at hpc
          exact absurd hpc (ne_of_lt (parent_lt hpj0))
        rw [getEv_swap_other hi hj hppi hppj]
        rcases eq_or_ne c j with hcj | hcj
        · rw [hcj, getEv_swap_snd hi hj hjne]
          exact hinv.1 (parent j) hi hpj0 hne
        · rw [getEv_swap_other hi hj hcne hcj]
          have h1 : (getEv a (parent (parent j))).t ≤ (getEv a (parent j)).t :=
            hinv.1 (parent j) hi hpj0 hne
          have h2 : (getEv a (parent j)).t ≤ (getEv a c).t := by
            have hh := hinv.1 c hc hc0 hcj
            rw [hpc] at hh
            exact hh
          exact le_trans h1 h2

theorem heapN_root_le {a : EventQueue} {n : ℕ} (h : IsHeapN n a) :
    ∀ k, k < n → (getEv a 0).t ≤ (getEv a k).t := by
  intro k
  induction k using Nat.strong_induction_on with
  | _ k ih =>
    intro hk
    rcases Nat.eq_zero_or_pos k with rfl | hk0
    · exact le_refl _
    · exact le_trans (ih (parent k) (parent_lt hk0)
        (lt_trans (parent_lt hk0) hk)) (h k hk hk0)

theorem size_add (a : EventQueue) (e : Event) : (add a e).size = a.size + 1 := by
  unfold add
  rw [size_up]
  simp

theorem contents_add (a : EventQueue) (e : Event) :
    contents (add a e) = e ::ₘ contents a := by
  unfold add
  rw [contents_up _ _ (by simp), contents_push]

theorem isHeap_add {a : EventQueue} (ha : IsHeap a) (e : Event) :
    IsHeap (add a e) := by
  unfold add
  apply up_heap _ _ (by simp)
  constructor
  · intro k hk hk0 hkj
    have hks : k < a.size := by
      simp only [Array.size_push] at hk
      omega
    have hpks : parent k < a.size := lt_of_le_of_lt (parent_le k) hks
    rw [getEv_push_lt hks, getEv_push_lt hpks]
    exact ha k hks hk0
  · intro h0 c hc hpc
    exfalso
    unfold parent at hpc
    simp only [Array.size_push] at hc
    omega

theorem size_down (a : EventQueue) (i n : ℕ) : (down a i n).size = a.size := by
  induction a, i, n using down.induct with
  | case1 a i n h1 hlt ih =>
    rw [down, dif_pos h1, if_pos hlt, ih, size_swapBang]
  | case2 a i n h1 hlt =>
    rw [down, dif_pos h1, if_neg hlt]
  | case3 a i n h1 =>
    rw [down, dif_neg h1]

theorem contents_down (a : EventQueue) (i n : ℕ) : n ≤ a.size →
    contents (down a i n) = contents a := by
  induction a, i, n using down.induct with
  | case1 a i n h1 hlt ih =>
    intro hn
    have hj : minChild a i n < a.size := lt_of_lt_of_le (minChild_lt h1) hn
    have hi : i < a.size := lt_trans (lt_minChild a i n) hj
    rw [down, dif_pos h1, if_pos hlt, ih (by rw [size_swapBang]; exact hn),
      contents_swapBang hi hj]
  | case2 a i n h1 hlt =>
    intro hn
    rw [down, dif_pos h1, if_neg hlt]
  | case3 a i n h1 =>
    intro hn
    rw [down, dif_neg h1]

theorem getEv_down_high (a : EventQueue) (i n : ℕ) : n ≤ a.size →
    ∀ k, n ≤ k → getEv (down a i n) k = getEv a k := by
  induction a, i, n using down.induct with
  | case1 a i n h1 hlt ih =>
    intro hn k hk
    have hj : minChild a i n < a.size := lt_of_lt_of_le (minChild_lt h1) hn
    have hi : i < a.size := lt_trans (lt_minChild a i n) hj
    have hmc : minChild a i n < k := lt_of_lt_of_le (minChild_lt h1) hk
    have hki : k ≠ i := by
      have := lt_minChild a i n
      omega
    have hkj : k ≠ minChild a i n := by omega
    rw [down, dif_pos h1, if_pos hlt, ih (by rw [size_swapBang]; exact hn) k hk,
      getEv_swap_other hi hj hki hkj]
  | case2 a i n h1 hlt =>
    intro hn k hk
    rw [down, dif_pos h1, if_neg hlt]
  | case3 a i n h1 =>
    intro hn k hk
    rw [down, dif_neg h1]

theorem down_heap (a : EventQueue) (i n : ℕ) : n ≤ a.size → DownInv a i n →
    IsHeapN n (down a i n) := by
  induction a, i, n using down.induct with
  | case3 a i n h1 =>
    intro hn hinv
    rw [down, dif_neg h1]
    intro k hk hk0
    rcases eq_or_ne (parent k) i with hpk | hpk
    · exfalso
      rcases (parent_eq_iff hk0).mp hpk with hk1 | hk1 <;> omega
    · exact hinv.1 k hk hk0 hpk
  | case2 a i n h1 hlt =>
    intro hn hinv
    rw [down, dif_pos h1, if_neg hlt]
    intro k hk hk0
    rcases eq_or_ne (parent k) i with hpk | hpk
    · rw [hpk]
      have hile : (getEv a i).t ≤ (getEv a (minChild a i n)).t := le_of_not_lt hlt
      rcases (parent_eq_iff hk0).mp hpk with hk1 | hk1
      · rw [hk1]
        exact le_trans hile (minChild_le_left a i n)
      · rw [hk1]
        exact le_trans hile (minChild_le_right (hk1 ▸ hk))
    · exact hinv.1 k hk hk0 hpk
  | case1 a i n h1 hlt ih =>
    intro hn hinv
    have hjn : minChild a i n < n := minChild_lt h1
    have hij : i < minChild a i n := lt_minChild a i n
    have hjs : minChild a i n < a.size := lt_of_lt_of_le hjn hn
    have hi : i < a.size := lt_trans hij hjs
    have hpj : parent (minChild a i n) = i := parent_minChild a i n
    have hjnei : minChild a i n ≠ i := Nat.ne_of_gt hij
    rw [down, dif_pos h1, if_pos hlt]
    apply ih (by rw [size_swapBang]; exact hn)
    constructor
    · -- every heap edge not leaving the new hole j
      intro k hk hk0 hpkj
      rcases eq_or_ne k i with hki | hki
      · -- the edge from i's parent into i, which now holds a's j entry
        have hi0 : 0 < i := hki ▸ hk0
        have hpii : parent i ≠ i := Nat.ne_of_lt (parent_lt hi0)
        have hpij : parent i ≠ minChild a i n :=
          Nat.ne_of_lt (lt_trans (parent_lt hi0) hij)
        rw [hki, getEv_swap_other hi hjs hpii hpij, getEv_swap_fst hi hjs]
        exact hinv.2 hi0 (minChild a i n) hjn hpj
      · rcases eq_or_ne k (minChild a i n) with hkj | hkj
        · -- the swapped pair itself
          rw [hkj, hpj, getEv_swap_fst hi hjs, getEv_swap_snd hi hjs hjnei]
          exact le_of_lt hlt
        · have hkswap : getEv (a.swap! i (minChild a i n)) k = getEv a k :=
            getEv_swap_other hi hjs hki hkj
          rcases eq_or_ne (parent k) i with hpki | hpki
          · -- k is the hole's other child: the sibling of j
            rw [hkswap, hpki, getEv_swap_fst hi hjs]
            rcases (parent_eq_iff hk0).mp hpki with hk1 | hk1
            · rw [hk1]
              exact minChild_le_left a i n
            · rw [hk1]
              exact minChild_le_right (hk1 ▸ hk)
          · -- an edge untouched by the swap
            rw [hkswap, getEv_swap_other hi hjs hpki hpkj]
            exact hinv.1 k hk hk0 hpki
    · -- the new hole's parent i is below the new hole's children
      intro hj0 c hc hpc
      have hc0 : 0 < c := by
        rcases Nat.eq_zero_or_pos c with rfl | h0
        · rw [parent_zero] at hpc
          omega
        · exact h0
      have hcj : c ≠ minChild a i n := by
        have := parent_lt hc0
        omega
      have hci : c ≠ i := by
        have := parent_lt hc0
        omega
      rw [hpj, getEv_swap_fst hi hjs, getEv_swap_other hi hjs hci hcj]
      have hh := hinv.1 c hc hc0 (by rw [hpc]; exact Nat.ne_of_gt hij)
      rw [hpc] at hh
      exact hh

theorem getEv_pop {b : EventQueue} {k : ℕ} (h : k < b.size - 1) :
    getEv b.pop k = getEv b k := by
  have h1 : k < b.pop.size := by
    rw [Array.size_pop]
    exact h
  have h2 : k < b.size := lt_of_lt_of_le h (Nat.sub_le _ _)
  rw [getEv_eq_getElem h1, getEv_eq_getElem h2, Array.getElem_pop]

theorem contents_pop (b : EventQueue) (h : 0 < b.size) :
    contents b = getEv b (b.size - 1) ::ₘ contents b.pop := by
  have hl : b.toList.length = b.size := Array.length_toList
  have hne : b.toList ≠ [] := by
    intro hnil
    rw [hnil] at hl
    simp at hl
    omega
  have hlast : b.toList.getLast hne = getEv b (b.size - 1) := by
    rw [List.getLast_eq_getElem, getEv_eq_getElem (Nat.sub_lt h Nat.one_pos),
      Array.getElem_eq_getElem_toList]
  unfold contents
  rw [Array.toList_pop]
  conv_lhs => rw [← List.dropLast_append_getLast hne]
  rw [← Multiset.coe_add, hlast, Multiset.coe_singleton, add_comm,
    Multiset.singleton_add]

theorem next_none {a : EventQueue} (h : a.size = 0) : next a = none := by
  unfold next
  rw [if_pos h]

theorem next_spec {a : EventQueue} (h : 0 < a.size) :
    ∃ q', next a = some (getEv a 0, q') ∧
      contents a = getEv a 0 ::ₘ contents q' ∧
      q'.size = a.size - 1 ∧
      (IsHeap a → IsHeap q') := by
  have hsz : a.size ≠ 0 := Nat.pos_iff_ne_zero.mp h
  have hn : a.size - 1 < a.size := Nat.sub_lt h Nat.one_pos
  have hsw1 : (a.swap! 0 (a.size - 1)).size = a.size := size_swapBang a 0 (a.size - 1)
  have hnle : a.size - 1 ≤ (a.swap! 0 (a.size - 1)).size := by
    rw [hsw1]
    exact le_of_lt hn
  have hb : (down (a.swap! 0 (a.size - 1)) 0 (a.size - 1)).size = a.size := by
    rw [size_down, hsw1]
  have hroot : getEv (down (a.swap! 0 (a.size - 1)) 0 (a.size - 1)) (a.size - 1)
      = getEv a 0 := by
    rw [getEv_down_high _ 0 (a.size - 1) hnle (a.size - 1) (le_refl _)]
    rcases Nat.eq_zero_or_pos (a.size - 1) with h0 | h0
    · rw [h0]
      exact getEv_swap_fst h h
    · exact getEv_swap_snd h hn (Nat.pos_iff_ne_zero.mp h0)
  refine ⟨(down (a.swap! 0 (a.size - 1)) 0 (a.size - 1)).pop, ?_, ?_, ?_, ?_⟩
  · simp only [next, if_neg hsz]
    rw [hroot]
  · have hc : contents (down (a.swap! 0 (a.size - 1)) 0 (a.size - 1)) = contents a := by
      rw [contents_down _ 0 (a.size - 1) hnle, contents_swapBang h hn]
    rw [← hc, ← hroot]
    have := contents_pop (down (a.swap! 0 (a.size - 1)) 0 (a.size - 1)) (by rw [hb]; exact h)
    rw [hb] at this
    exact this
  · rw [Array.size_pop, hb]
  · intro ha
    have hinv : DownInv (a.swap! 0 (a.size - 1)) 0 (a.size - 1) := by
      constructor
      · intro k hk hk0 hpk
        have hks : k < a.size := lt_trans hk hn
        have hpks : parent k < a.size - 1 := lt_of_le_of_lt (parent_le k) hk
        have hkn : k ≠ a.size - 1 := Nat.ne_of_lt hk
        have hpkn : parent k ≠ a.size - 1 := Nat.ne_of_lt hpks
        rw [getEv_swap_other h hn hpk hpkn,
          getEv_swap_other h hn (Nat.pos_iff_ne_zero.mp hk0) hkn]
        exact ha k hks hk0
      · intro h0
        exact absurd h0 (lt_irrefl 0)
    have hN := down_heap (a.swap! 0 (a.size - 1)) 0 (a.size - 1) hnle hinv
    intro k hk hk0
    rw [Array.size_pop, hb] at hk
    have hpk : parent k < a.size - 1 := lt_of_le_of_lt (parent_le k) hk
    rw [getEv_pop (by rw [hb]; exact hpk), getEv_pop (by rw [hb]; exact hk)]
    exact hN k hk hk0

theorem mem_contents_iff {a : EventQueue} {x : Event} :
    x ∈ contents a ↔ ∃ k, ∃ h : k < a.size, getEv a k = x := by
  unfold contents
  rw [Multiset.mem_coe, List.mem_iff_getElem]
  have hl : a.toList.length = a.size := Array.length_toList
  constructor
  · rintro ⟨i, hi, hx⟩
    have hi' : i < a.size := by omega
    exact ⟨i, hi', by rw [getEv_eq_getElem hi']; rw [Array.getElem_eq_getElem_toList]; exact hx⟩
  · rintro ⟨k, hk, hx⟩
    have hk' : k < a.toList.length := by omega
    refine ⟨k, hk', ?_⟩
    rw [← hx, getEv_eq_getElem hk, Array.getElem_eq_getElem_toList]

theorem root_min {a : EventQueue} (ha : IsHeap a) :
    ∀ x ∈ contents a, (getEv a 0).t ≤ x.t := by
  intro x hx
  obtain ⟨k, hk, hkx⟩ := mem_contents_iff.mp hx
  rw [← hkx]
  exact heapN_root_le ha k hk

theorem reachable_isHeap {q : EventQueue} (h : Reachable q) : IsHeap q := by
  induction h with
  | empty =>
    intro k hk hk0
    simp [emptyQueue] at hk
  | add e _ ih =>
    exact isHeap_add ih e
  | next hq hnext ih =>
    rename_i q q' e
    rcases Nat.eq_zero_or_pos q.size with h0 | h0
    · rw [next_none h0] at hnext
      exact absurd hnext (by simp)
    · obtain ⟨q'', hq'', _, _, hheap⟩ := next_spec h0
      rw [hnext] at hq''
      simp only [Option.some.injEq, Prod.mk.injEq] at hq''
      rw [hq''.2]
      exact hheap ih

/-- Go type TMState with its four constants (the sima package's version;
the retired part_002 variant lacking STOPPED is not modelled). -/
inductive TMState where
  | IDLE : TMState
  | PAUSED : TMState
  | RUNNING : TMState
  | STOPPED : TMState
deriving DecidableEq

/-- Go struct TimeMachine.  The events channel appears as its buffered
contents (capacity is not modelled; Schedule would block on a full channel).
log is ghost state recording the events executed so far, in order, so that
theorems can speak about execution. -/
structure TM where
  eventQueue : EventQueue
  t : ℚ
  cycleTime : ℤ
  state : TMState
  speed : ℚ
  events : List Event
  log : List Event
deriving DecidableEq

/-- The clamp applied by SetSpeed in both variants and by the sima package's
NewTimeMachine: a speed below 0.01 = 1/100 becomes 0.01. -/
def clampSpeed (v : ℚ) : ℚ := if v < 1 / 100 then 1 / 100 else v

/-- Go core.NewTimeMachine: stores the given speed with no clamp.  The
eventChanSize capacity argument is not modelled. -/
def coreNewTimeMachine (speed : ℚ) (cycleTime : ℤ) : TM :=
  { eventQueue := emptyQueue, t := 0, cycleTime := cycleTime, state := .IDLE,
    speed := speed, events := [], log := [] }

/-- Go sima.NewTimeMachine: same, but the speed is clamped to at least 0.01
before being stored. -/
def simaNewTimeMachine (speed : ℚ) (cycleTime : ℤ) : TM :=
  { eventQueue := emptyQueue, t := 0, cycleTime := cycleTime, state := .IDLE,
    speed := clampSpeed speed, events := [], log := [] }

/-- Go TimeMachine.Schedule (both variants): a negative dt is reset to 0 and
an Event at tm.t + dt is sent into the events channel. -/
def Schedule (tm : TM) (dt : ℚ) (f : Act) : TM :=
  let dt2 := if dt < 0 then 0 else dt
  { tm with events := tm.events ++ [⟨tm.t + dt2, f⟩] }

/-- Executing a callback: each recorded schedule entry is a tm.Schedule call,
performed in order against the current machine. -/
def runAct : TM → Act → TM
  | tm, .nil => tm
  | tm, .schedule dt f rest => runAct (Schedule tm dt f) rest

/-- The list of events a callback submits when executed at simulation time t
(the value tm.t holds while it runs). -/
def schedOf (t : ℚ) : Act → List Event
  | .nil => []
  | .schedule dt f rest => ⟨t + (if dt < 0 then 0 else dt), f⟩ :: schedOf t rest

/-- The non-blocking eventLoop drain appearing both in the driver cycle and at
the end of Step: every buffered event moves from the channel into the queue. -/
def drain (tm : TM) : TM :=
  { tm with eventQueue := tm.events.foldl add tm.eventQueue, events := [] }

/-- Go TimeMachine.Step (both variants): pop the next event, set t to its
time, run its callback, then drain the events channel.  On the empty queue
eventQueue.next returns nil and the Go code dereferences it (ev.t), a runtime
panic, modelled as none. -/
def Step (tm : TM) : Option TM :=
  match next tm.eventQueue with
  | none => none
  | some (ev, q) =>
      some (drain (runAct
        { tm with eventQueue := q, t := ev.t, log := tm.log ++ [ev] } ev.f))

/-- Size of a callback script: the total number of schedule entries in it,
nested ones included. -/
def actWeight : Act → ℕ
  | .nil => 0
  | .schedule _ f rest => 1 + actWeight f + actWeight rest

def evWeight (e : Event) : ℕ := 1 + actWeight e.f

/-- Termination measure for the driver's advance loop: total weight of all
events in the queue and in the channel buffer.  Each Step consumes one event
and adds exactly the events its callback schedules, whose total weight is
the callback's weight, so the measure drops by one. -/
def tmWeight (tm : TM) : ℕ :=
  ((contents tm.eventQueue).map evWeight).sum + (tm.events.map evWeight).sum

theorem runAct_eq (a : Act) : ∀ tm : TM,
    runAct tm a = { tm with events := tm.events ++ schedOf tm.t a } := by
  induction a with
  | nil =>
    intro tm
    simp [runAct, schedOf]
  | schedule dt f rest ihf ihrest =>
    intro tm
    rw [runAct, ihrest, schedOf]
    simp [Schedule]

theorem contents_foldl_add (l : List Event) : ∀ q : EventQueue,
    contents (l.foldl add q) = contents q + (l : Multiset Event) := by
  induction l with
  | nil =>
    intro q
    simp [List.foldl]
  | cons e rest ih =>
    intro q
    rw [List.foldl_cons, ih, contents_add, ← Multiset.cons_coe,
      Multiset.add_cons, Multiset.cons_add]

theorem schedOf_weight (a : Act) : ∀ t : ℚ,
    ((schedOf t a).map evWeight).sum = actWeight a := by
  induction a with
  | nil =>
    intro t
    simp [schedOf, actWeight]
  | schedule dt f rest ihf ihrest =>
    intro t
    simp [schedOf, actWeight, ihrest, evWeight]

theorem tmWeight_drain (tm : TM) : tmWeight (drain tm) = tmWeight tm := by
  unfold tmWeight drain
  dsimp only
  rw [contents_foldl_add]
  simp only [Multiset.map_add, Multiset.sum_add, Multiset.map_coe,
    Multiset.sum_coe, List.map_nil, List.sum_nil]
  omega

theorem tmWeight_runAct (tm : TM) (a : Act) :
    tmWeight (runAct tm a) = tmWeight tm + actWeight a := by
  rw [runAct_eq]
  unfold tmWeight
  dsimp only
  rw [List.map_append, List.sum_append, schedOf_weight]
  omega

theorem step_weight {tm tm2 : TM} (h : Step tm = some tm2) :
    tmWeight tm2 < tmWeight tm := by
  unfold Step at h
  rcases hq : next tm.eventQueue with _ | ⟨ev, q⟩
  · rw [hq] at h
    exact absurd h (by simp)
  · rw [hq] at h
    have hsz : 0 < tm.eventQueue.size := by
      rcases Nat.eq_zero_or_pos tm.eventQueue.size with h0 | h0
      · rw [next_none h0] at hq
        exact absurd hq (by simp)
      · exact h0
    obtain ⟨q', hq', hcont, _, _⟩ := next_spec hsz
    rw [hq] at hq'
    simp only [Option.some.injEq, Prod.mk.injEq] at hq'
    have hev : ev = getEv tm.eventQueue 0 := hq'.1
    have hqq : q = q' := hq'.2
    simp only [Option.some.injEq] at h
    rw [← h, tmWeight_drain, tmWeight_runAct]
    unfold tmWeight
    dsimp only
    rw [hcont, hqq, hev]
    simp only [Multiset.map_cons, Multiset.sum_cons]
    unfold evWeight
    omega

/-- The advance loop of the driver cycle (both variants): while the queue's
minimum time is below the cycle's budget dtReal * speed, Step.  The returned
flag is Go's ok = false: the loop ended because the queue was empty.  The
inner none branch is unreachable (nextT succeeded, so the queue is not
empty). -/
def advance (dtReal : ℤ) (tm : TM) : TM × Bool :=
  match nextT tm.eventQueue with
  | none => (tm, true)
  | some tNext =>
    if tNext < (dtReal : ℚ) * tm.speed then
      match h : Step tm with
      | none => (tm, true)
      | some tm2 => advance dtReal tm2
    else (tm, false)
termination_by tmWeight tm
decreasing_by exact step_weight h

/-- The driver's command protocol.  Go transports commands as strings
("PAUSE", "SetSpeed 2.0", ...) produced only by the corresponding methods;
they are modelled as the commands they encode (FormatFloat/ParseFloat
round-trip, so the driver's parse failure branch is unreachable from the
API).  The unrecognized-command branch is likewise unreachable. -/
inductive Cmd where
  | pause : Cmd
  | resume : Cmd
  | stop : Cmd
  | setSpeed (v : ℚ) : Cmd
deriving DecidableEq

/-- Result of the driver processing one command: the machine, the updated
pause bookkeeping (tReal_pause, tReal_offset), the acknowledgment the sima
driver sends on the done channel (the core driver sends none), and whether
the command was STOP, which breaks the main loop. -/
structure CmdResult where
  tm : TM
  pausedAt : ℤ
  offset : ℤ
  ack : Bool
  halt : Bool
deriving DecidableEq

/-- The driver's command dispatch at real time now (the tick's timestamp
tReal).  Mutations are identical in the two variants; only the done channel
acknowledgments distinguish them, and the core driver ignores ack. -/
def applyCmd (now : ℤ) (tm : TM) (pausedAt offset : ℤ) : Cmd → CmdResult
  | .pause =>
    if tm.state = .RUNNING then
      ⟨{ tm with state := .PAUSED }, now, offset, true, false⟩
    else ⟨tm, pausedAt, offset, false, false⟩
  | .stop => ⟨{ tm with state := .STOPPED }, pausedAt, offset, true, true⟩
  | .resume =>
    if tm.state = .PAUSED then
      ⟨{ tm with state := .RUNNING }, pausedAt, offset + (now - pausedAt), true, false⟩
    else ⟨tm, pausedAt, offset, false, false⟩
  | .setSpeed v => ⟨{ tm with speed := v }, pausedAt, offset, true, false⟩

/-- One tick's external input: the tick timestamp, the Schedule calls whose
events reached the channel since the last tick, and the at most one command
the sima driver's single non-blocking select can receive. -/
structure CycleInput where
  now : ℤ
  scheds : List (ℚ × Act)
  cmd : Option Cmd
deriving DecidableEq

/-- The driver goroutine's state: the machine it owns, run()'s locals
tReal_pause, tReal_offset and tReal_start, and whether the goroutine is
still running. -/
structure DriverState where
  tm : TM
  pausedAt : ℤ
  offset : ℤ
  start : ℤ
  live : Bool
deriving DecidableEq

/-- Clients calling tm.Schedule between ticks, in order. -/
def submitAll (tm : TM) (scheds : List (ℚ × Act)) : TM :=
  scheds.foldl (fun m p => Schedule m p.1 p.2) tm

/-- One iteration of the sima run() main loop: drain the events channel,
process at most one pending command (acknowledging it), then, when RUNNING,
advance due events against the budget (now - tReal_start - tReal_offset) *
speed.  An empty queue merely ends the advance phase.  STOP stops the ticker,
acknowledges and breaks the main loop. -/
def simaCycle (inp : CycleInput) (d : DriverState) : DriverState × Option Bool :=
  let tm0 := drain (submitAll d.tm inp.scheds)
  match inp.cmd with
  | some c =>
    let r := applyCmd inp.now tm0 d.pausedAt d.offset c
    if r.halt then
      ({ d with tm := r.tm, pausedAt := r.pausedAt, offset := r.offset,
                live := false }, some r.ack)
    else if r.tm.state = .RUNNING then
      ({ d with tm := (advance (inp.now - d.start - r.offset) r.tm).1,
                pausedAt := r.pausedAt, offset := r.offset }, some r.ack)
    else
      ({ d with tm := r.tm, pausedAt := r.pausedAt, offset := r.offset },
        some r.ack)
  | none =>
    if tm0.state = .RUNNING then
      ({ d with tm := (advance (inp.now - d.start - d.offset) tm0).1 }, none)
    else
      ({ d with tm := tm0 }, none)

/-- A tick against a possibly finished driver: a dead goroutine runs no
cycle, so submitted events stay in the buffered channel and a command send
would block its caller forever (no command is applied). -/
def simaRunCycle (inp : CycleInput) (d : DriverState) : DriverState :=
  if d.live then (simaCycle inp d).1
  else { d with tm := submitAll d.tm inp.scheds }

def simaRunCycles (d : DriverState) (inps : List CycleInput) : DriverState :=
  inps.foldl (fun s i => simaRunCycle i s) d

/-- One tick's input to the core driver, whose cmdLoop drains every pending
command. -/
structure CoreCycleInput where
  now : ℤ
  scheds : List (ℚ × Act)
  cmds : List Cmd
deriving DecidableEq

/-- How a core driver cycle ended: still looping, break main after STOP, or
the bare return taken when the advance phase finds the queue empty. -/
inductive CoreExit where
  | looping : CoreExit
  | stopped : CoreExit
  | starved : CoreExit
deriving DecidableEq

/-- The core driver's cmdLoop: process every pending command; STOP breaks
the main loop at once, skipping the rest. -/
def coreCmds (now : ℤ) (tm : TM) (pausedAt offset : ℤ) :
    List Cmd → TM × ℤ × ℤ × Bool
  | [] => (tm, pausedAt, offset, false)
  | c :: rest =>
    let r := applyCmd now tm pausedAt offset c
    if r.halt then (r.tm, r.pausedAt, r.offset, true)
    else coreCmds now r.tm r.pausedAt r.offset rest

/-- One iteration of the core run() main loop (core/timeMachine.go): drain
events, drain commands, then, when RUNNING, advance due events; unlike the
sima driver, an empty queue during the advance phase executes return,
terminating the goroutine with the state left as it is. -/
def coreCycle (inp : CoreCycleInput) (d : DriverState) : DriverState × CoreExit :=
  let tm0 := drain (submitAll d.tm inp.scheds)
  match hr : coreCmds inp.now tm0 d.pausedAt d.offset inp.cmds with
  | (tm1, p1, o1, halt) =>
    if halt then
      ({ d with tm := tm1, pausedAt := p1, offset := o1, live := false },
        .stopped)
    else if tm1.state = .RUNNING then
      let s := advance (inp.now - d.start - o1) tm1
      if s.2 then
        ({ d with tm := s.1, pausedAt := p1, offset := o1, live := false },
          .starved)
      else
        ({ d with tm := s.1, pausedAt := p1, offset := o1 }, .looping)
    else
      ({ d with tm := tm1, pausedAt := p1, offset := o1 }, .looping)

/-- Go sima.Start: rejected unless IDLE; otherwise go run() sets RUNNING,
anchors tReal_start at the present instant, zeroes the pause bookkeeping and
acknowledges true. -/
def simaStart (now : ℤ) (d : DriverState) : Bool × DriverState :=
  if d.tm.state ≠ .IDLE then (false, d)
  else (true, { tm := { d.tm with state := .RUNNING }, pausedAt := 0,
                offset := 0, start := now, live := true })

/-- Go sima.Pause: rejected at once unless RUNNING; otherwise the PAUSE
command goes to the driver, which applies it in its next cycle and
acknowledges. -/
def simaPause (now : ℤ) (d : DriverState) : Bool × DriverState :=
  if d.tm.state ≠ .RUNNING then (false, d)
  else
    let r := simaCycle ⟨now, [], some .pause⟩ d
    (r.2.getD false, r.1)

/-- Go sima.Resume: rejected at once unless PAUSED. -/
def simaResume (now : ℤ) (d : DriverState) : Bool × DriverState :=
  if d.tm.state ≠ .PAUSED then (false, d)
  else
    let r := simaCycle ⟨now, [], some .resume⟩ d
    (r.2.getD false, r.1)

/-- Go sima.Stop: rejected at once unless RUNNING or PAUSED. -/
def simaStop (now : ℤ) (d : DriverState) : Bool × DriverState :=
  if d.tm.state ≠ .RUNNING ∧ d.tm.state ≠ .PAUSED then (false, d)
  else
    let r := simaCycle ⟨now, [], some .stop⟩ d
    (r.2.getD false, r.1)

/-- Go sima.SetSpeed: no state guard; the speed is clamped client side and
sent to the driver. -/
def simaSetSpeed (now : ℤ) (v : ℚ) (d : DriverState) : Bool × DriverState :=
  let r := simaCycle ⟨now, [], some (.setSpeed (clampSpeed v))⟩ d
  (r.2.getD false, r.1)

/-- A client calling tm.Step directly.  On the empty queue the Go call
panics while reading ev.t, before any field of tm is written: the machine
is left as it was. -/
def clientStep (tm : TM) : TM :=
  match Step tm with
  | none => tm
  | some tm2 => tm2

/-- The public operations a trace may interleave. -/
inductive Op where
  | cycle (inp : CycleInput) : Op
  | coreCyc (inp : CoreCycleInput) : Op
  | stepOp : Op
  | scheduleOp (dt : ℚ) (f : Act) : Op
  | startOp (now : ℤ) : Op
  | pauseOp (now : ℤ) : Op
  | resumeOp (now : ℤ) : Op
  | stopOp (now : ℤ) : Op
  | setSpeedOp (now : ℤ) (v : ℚ) : Op

def applyOp (d : DriverState) : Op → DriverState
  | .cycle inp => simaRunCycle inp d
  | .coreCyc inp =>
    if d.live then (coreCycle inp d).1
    else { d with tm := submitAll d.tm inp.scheds }
  | .stepOp => { d with tm := clientStep d.tm }
  | .scheduleOp dt f => { d with tm := Schedule d.tm dt f }
  | .startOp now => (simaStart now d).2
  | .pauseOp now => (simaPause now d).2
  | .resumeOp now => (simaResume now d).2
  | .stopOp now => (simaStop now d).2
  | .setSpeedOp now v => (simaSetSpeed now v d).2

def applyOps (d : DriverState) (ops : List Op) : DriverState :=
  ops.foldl applyOp d

/-- The machine's inductive invariant: a heap-shaped queue, every stored or
buffered event scheduled no earlier than the clock, and an execution log
whose times are sorted and bounded by the clock. -/
def WFtm (tm : TM) : Prop :=
  IsHeap tm.eventQueue ∧
  (∀ e ∈ contents tm.eventQueue, tm.t ≤ e.t) ∧
  (∀ e ∈ tm.events, tm.t ≤ e.t) ∧
  (∀ e ∈ tm.log, e.t ≤ tm.t) ∧
  List.Sorted (fun x y => x ≤ y) (tm.log.map Event.t)

/-- The sima liveness invariant: the driver goroutine is running exactly in
the RUNNING and PAUSED states. -/
def DriverLive (d : DriverState) : Prop :=
  d.live = true ↔ (d.tm.state = .RUNNING ∨ d.tm.state = .PAUSED)

/-- A direct Step call is compatible with the clock invariant only when the
events channel has been drained: Step pops the queue minimum without looking
at the channel, and an undrained older event would be executed late.  Driver
cycles drain the channel before advancing, so they need no side condition. -/
def OpSafe (d : DriverState) : Op → Prop
  | .stepOp => d.tm.events = []
  | _ => True

/-- A trace whose direct Step calls all happen with a drained channel. -/
inductive SafeTrace : DriverState → List Op → Prop where
  | nil {d : DriverState} : SafeTrace d []
  | cons {d : DriverState} {op : Op} {ops : List Op} :
      OpSafe d op → SafeTrace (applyOp d op) ops → SafeTrace d (op :: ops)

/-- A concrete machine with a running state and an empty queue, as after a
start with nothing scheduled. -/
def tmStarvedC9 : TM :=
  { eventQueue := emptyQueue, t := 0, cycleTime := 10, state := .RUNNING,
    speed := 1, events := [], log := [] }

def dStarvedC9 : DriverState :=
  { tm := tmStarvedC9, pausedAt := 0, offset := 0, start := 0, live := true }

/-- A two-element queue built by the public add operation. -/
def qTwo : EventQueue := add (add emptyQueue ⟨5, .nil⟩) ⟨3, .nil⟩

def qTwoRest : EventQueue := #[⟨5, .nil⟩]

/-- A freshly started machine at speed 1 with cycle time 1. -/
def tmFresh : TM :=
  { eventQueue := emptyQueue, t := 0, cycleTime := 1, state := .RUNNING,
    speed := 1, events := [], log := [] }

def dFresh : DriverState :=
  { tm := tmFresh, pausedAt := 0, offset := 0, start := 0, live := true }

/-- Schedule an event at time 10, let a cycle drain it (budget 0, nothing
runs), schedule an event at time 5 which stays in the channel, then Step. -/
def opsBackPre : List Op :=
  [.scheduleOp 10 .nil, .cycle ⟨0, [], none⟩, .scheduleOp 5 .nil, .stepOp]

/-- One more Step: it drains the channel only after popping, so the event at
5 executes after the one at 10 and the clock moves backwards. -/
def opsBack : List Op := opsBackPre ++ [.stepOp]

instance decIsHeapN (n : ℕ) (a : EventQueue) : Decidable (IsHeapN n a) := by
  unfold IsHeapN
  infer_instance

instance decIsHeap (a : EventQueue) : Decidable (IsHeap a) := by
  unfold IsHeap
  infer_instance

instance decWFtm (tm : TM) : Decidable (WFtm tm) := by
  unfold WFtm
  infer_instance

instance decDriverLive (d : DriverState) : Decidable (DriverLive d) := by
  unfold DriverLive
  infer_instance

instance decOpSafe (d : DriverState) (op : Op) : Decidable (OpSafe d op) := by
  unfold OpSafe
  cases op <;> infer_instance

theorem isHeap_foldl_add (l : List Event) : ∀ q : EventQueue, IsHeap q →
    IsHeap (l.foldl add q) := by
  induction l with
  | nil =>
    intro q hq
    exact hq
  | cons e rest ih =>
    intro q hq
    rw [List.foldl_cons]
    exact ih (add q e) (isHeap_add hq e)

/-- What one successful Step does, field by field: the popped event is the
queue's root, the clock becomes its time, it is logged once, its callback's
submissions and everything already buffered land in the queue, and the
channel is left empty. -/
theorem step_fields {tm tm2 : TM} (h : Step tm = some tm2) :
    ∃ ev q1,
      next tm.eventQueue = some (ev, q1) ∧
      ev = getEv tm.eventQueue 0 ∧
      contents tm.eventQueue = ev ::ₘ contents q1 ∧
      tm2.t = ev.t ∧
      tm2.log = tm.log ++ [ev] ∧
      tm2.events = [] ∧
      tm2.state = tm.state ∧
      tm2.speed = tm.speed ∧
      tm2.cycleTime = tm.cycleTime ∧
      contents tm2.eventQueue =
        contents q1 + (tm.events : Multiset Event) +
          ((schedOf ev.t ev.f : List Event) : Multiset Event) ∧
      q1.size = tm.eventQueue.size - 1 ∧
      (IsHeap tm.eventQueue → IsHeap q1) ∧
      (IsHeap tm.eventQueue → IsHeap tm2.eventQueue) := by
  unfold Step at h
  rcases hq : next tm.eventQueue with _ | ⟨ev, q⟩
  · rw [hq] at h
    exact absurd h (by simp)
  · rw [hq] at h
    have hsz : 0 < tm.eventQueue.size := by
      rcases Nat.eq_zero_or_pos tm.eventQueue.size with h0 | h0
      · rw [next_none h0] at hq
        exact absurd hq (by simp)
      · exact h0
    obtain ⟨q', hq', hcont, hqsz, hheap⟩ := next_spec hsz
    rw [hq] at hq'
    simp only [Option.some.injEq, Prod.mk.injEq] at hq'
    have hev : ev = getEv tm.eventQueue 0 := hq'.1
    have hqq : q = q' := hq'.2
    simp only [Option.some.injEq] at h
    refine ⟨ev, q, rfl, hev, ?_, ?_, ?_, ?_, ?_, ?_, ?_, ?_, ?_, ?_, ?_⟩
    · rw [hcont, hqq, hev]
    · rw [← h, runAct_eq]
      rfl
    · rw [← h, runAct_eq]
      simp [drain]
    · rw [← h, runAct_eq]
      rfl
    · rw [← h, runAct_eq]
      rfl
    · rw [← h, runAct_eq]
      rfl
    · rw [← h, runAct_eq]
      rfl
    · rw [← h, runAct_eq]
      show contents (((tm.events ++ schedOf ev.t ev.f)).foldl add q) = _
      rw [contents_foldl_add, hqq, add_assoc, ← Multiset.coe_add]
    · rw [hqq, hqsz]
    · intro hh
      rw [hqq]
      exact hheap hh
    · intro hh
      rw [← h, runAct_eq]
      show IsHeap (((tm.events ++ schedOf ev.t ev.f)).foldl add q)
      rw [hqq]
      exact isHeap_foldl_add _ q' (hheap hh)

theorem schedOf_ge (a : Act) : ∀ t : ℚ, ∀ e ∈ schedOf t a, t ≤ e.t := by
  induction a with
  | nil =>
    intro t e he
    exact absurd he (by simp [schedOf])
  | schedule dt f rest ihf ihrest =>
    intro t e he
    rw [schedOf] at he
    rcases List.mem_cons.mp he with rfl | he2
    · show t ≤ t + _
      split
      · simp
      · rename_i hdt
        have : (0 : ℚ) ≤ dt := le_of_not_lt hdt
        linarith
    · exact ihrest t e he2

theorem submitAll_fields (scheds : List (ℚ × Act)) : ∀ tm : TM,
    (submitAll tm scheds).state = tm.state ∧
    (submitAll tm scheds).t = tm.t ∧
    (submitAll tm scheds).log = tm.log ∧
    (submitAll tm scheds).speed = tm.speed ∧
    (submitAll tm scheds).eventQueue = tm.eventQueue := by
  induction scheds with
  | nil =>
    intro tm
    exact ⟨rfl, rfl, rfl, rfl, rfl⟩
  | cons p rest ih =>
    intro tm
    exact ih (Schedule tm p.1 p.2)

theorem step_isSome {tm : TM} (h : 0 < tm.eventQueue.size) :
    ∃ tm2, Step tm = some tm2 := by
  obtain ⟨q1, hq1, _, _, _⟩ := next_spec h
  exact ⟨_, by unfold Step; rw [hq1]⟩

theorem advance_empty {dtReal : ℤ} {tm : TM}
    (h : nextT tm.eventQueue = none) : advance dtReal tm = (tm, true) := by
  rw [advance, h]

theorem advance_break {dtReal : ℤ} {tm : TM} {tNext : ℚ}
    (h : nextT tm.eventQueue = some tNext)
    (hge : ¬ tNext < (dtReal : ℚ) * tm.speed) :
    advance dtReal tm = (tm, false) := by
  rw [advance, h]
  dsimp only
  rw [if_neg hge]

theorem advance_step {dtReal : ℤ} {tm tm2 : TM} {tNext : ℚ}
    (h : nextT tm.eventQueue = some tNext)
    (hlt : tNext < (dtReal : ℚ) * tm.speed) (hs : Step tm = some tm2) :
    advance dtReal tm = advance dtReal tm2 := by
  rw [advance, h]
  dsimp only
  rw [if_pos hlt]
  split
  · rename_i heq
    rw [hs] at heq
    exact absurd heq (by simp)
  · rename_i tm3 heq
    rw [hs] at heq
    injection heq with heq2
    rw [heq2]

theorem advance_spec (dtReal : ℤ) : ∀ tm : TM,
    ∃ l, (advance dtReal tm).1.log = tm.log ++ l ∧
      (∀ e ∈ l, e.t < (dtReal : ℚ) * tm.speed) ∧
      (advance dtReal tm).1.state = tm.state ∧
      (advance dtReal tm).1.speed = tm.speed := by
  refine advance.induct dtReal _ ?_ ?_ ?_ ?_
  · intro tm hnone
    rw [advance_empty hnone]
    refine ⟨[], by simp, ?_, rfl, rfl⟩
    intro e he
    exact absurd he (by simp)
  · intro tm tNext hsome hlt hstep
    have hsz : 0 < tm.eventQueue.size := by
      unfold nextT at hsome
      split at hsome
      · assumption
      · exact absurd hsome (by simp)
    obtain ⟨tm2, hs2⟩ := step_isSome hsz
    rw [hs2] at hstep
    exact absurd hstep (by simp)
  · intro tm tNext hsome hlt tm2 hstep ih
    rw [advance_step hsome hlt hstep]
    obtain ⟨ev, q1, hq, hev, hcont, ht2, hlog2, hev2, hst2, hsp2, _, _, _⟩ :=
      step_fields hstep
    obtain ⟨l2, hl2, hb2, hs2, hsp⟩ := ih
    have htN : tNext = (getEv tm.eventQueue 0).t := by
      unfold nextT at hsome
      split at hsome
      · simpa using hsome.symm
      · exact absurd hsome (by simp)
    refine ⟨ev :: l2, ?_, ?_, ?_, ?_⟩
    · rw [hl2, hlog2, List.append_assoc, List.singleton_append]
    · intro e he
      rcases List.mem_cons.mp he with rfl | he2
      · rw [hev, ← htN]
        exact hlt
      · have hh := hb2 e he2
        rw [hsp2] at hh
        exact hh
    · rw [hs2, hst2]
    · rw [hsp, hsp2]
  · intro tm tNext hsome hge
    rw [advance_break hsome hge]
    refine ⟨[], by simp, ?_, rfl, rfl⟩
    intro e he
    exact absurd he (by simp)

theorem simaCycle_setSpeed (now : ℤ) (v : ℚ) (d : DriverState) :
    (simaCycle ⟨now, [], some (.setSpeed v)⟩ d).1.tm.speed = v ∧
    (simaCycle ⟨now, [], some (.setSpeed v)⟩ d).2 = some true := by
  unfold simaCycle applyCmd
  dsimp only [submitAll, List.foldl]
  rw [if_neg (by simp)]
  split
  · rename_i hrun
    obtain ⟨_, _, _, _, hsp⟩ := advance_spec (now - d.start - d.offset)
      { drain d.tm with speed := v }
    exact ⟨hsp, rfl⟩
  · exact ⟨rfl, rfl⟩

/-- C6: on the empty queue, eventQueue.next returns nil and Step immediately
dereferences it through ev.t: a runtime nil-pointer panic, modelled as none.
The specification instead promises a harmless no-op, so this is a bug in the
code, not in the claim. -/
theorem stepEmptyPanics (tm : TM) (h : tm.eventQueue.size = 0) :
    Step tm = none := by
  unfold Step
  rw [next_none h]

theorem stepEmptyPanicsWitness :
    Step (coreNewTimeMachine 1 10) = none :=
  stepEmptyPanics (coreNewTimeMachine 1 10) rfl

/-- C8 counterexample: the core package NewTimeMachine stores speed 0.001 as
given, so Speed() reports 0.001 where the claim asserts 0.01. -/
theorem coreConstructorStoresUnclamped :
    (coreNewTimeMachine (1 / 1000) 10).speed = 1 / 1000 ∧
      (coreNewTimeMachine (1 / 1000) 10).speed ≠ 1 / 100 := by
  constructor
  · rfl
  · intro hc
    norm_num [coreNewTimeMachine] at hc

/-- C8 (amended): SetSpeed clamps sub-0.01 speeds to 0.01 and Schedule clamps
negative dt to 0 in both variants, and the sima package NewTimeMachine clamps
the construction speed, but the core package NewTimeMachine stores the given
speed unclamped. -/
theorem clampedInputs :
    (∀ v cy, v < 1 / 100 → (simaNewTimeMachine v cy).speed = 1 / 100) ∧
    (∀ v cy, ¬ v < 1 / 100 → (simaNewTimeMachine v cy).speed = v) ∧
    (∀ v, v < 1 / 100 → clampSpeed v = 1 / 100) ∧
    (∀ tm dt f, dt < 0 →
      Schedule tm dt f = { tm with events := tm.events ++ [⟨tm.t, f⟩] }) ∧
    (∀ v cy, (coreNewTimeMachine v cy).speed = v) ∧
    (∀ now d, d.live = true →
      ((simaSetSpeed now (1 / 1000) d).2).tm.speed = 1 / 100) := by
  refine ⟨?_, ?_, ?_, ?_, ?_, ?_⟩
  · intro v cy hv
    show clampSpeed v = 1 / 100
    unfold clampSpeed
    rw [if_pos hv]
  · intro v cy hv
    show clampSpeed v = v
    unfold clampSpeed
    rw [if_neg hv]
  · intro v hv
    unfold clampSpeed
    rw [if_pos hv]
  · intro tm dt f hdt
    simp only [Schedule, if_pos hdt, add_zero]
  · intro v cy
    rfl
  · intro now d hlive
    have hcl : clampSpeed (1 / 1000) = 1 / 100 := by norm_num [clampSpeed]
    show (simaCycle ⟨now, [], some (.setSpeed (clampSpeed (1 / 1000)))⟩ d).1.tm.speed = 1 / 100
    rw [hcl]
    exact (simaCycle_setSpeed now (1 / 100) d).1

/-- C10: an applied SetSpeed command has no state precondition: in any state
it rewrites only the speed field, leaves the pause bookkeeping alone, does
not halt the loop, and (sima variant) is acknowledged true; the hypothesis
restricts to the states in which the driver loop is live and can apply it. -/
theorem setSpeedFrame (now : ℤ) (tm : TM) (p o : ℤ) (v : ℚ)
    (h : tm.state = .RUNNING ∨ tm.state = .PAUSED) :
    applyCmd now tm p o (.setSpeed v) =
      ⟨{ tm with speed := v }, p, o, true, false⟩ := rfl

theorem setSpeedFrameWitness :
    applyCmd 7 tmStarvedC9 0 0 (.setSpeed 2) =
      ⟨{ tmStarvedC9 with speed := 2 }, 0, 0, true, false⟩ :=
  setSpeedFrame 7 tmStarvedC9 0 0 2 (Or.inl rfl)

theorem clampedInputsWitness :
    (simaNewTimeMachine (1 / 1000) 10).speed = 1 / 100 ∧
    Schedule tmStarvedC9 (-5) .nil =
      { tmStarvedC9 with events := tmStarvedC9.events ++ [⟨tmStarvedC9.t, .nil⟩] } ∧
    ((simaSetSpeed 3 (1 / 1000) dStarvedC9).2).tm.speed = 1 / 100 :=
  ⟨clampedInputs.1 (1 / 1000) 10 (by norm_num),
   clampedInputs.2.2.2.1 tmStarvedC9 (-5) .nil (by norm_num),
   clampedInputs.2.2.2.2.2 3 dStarvedC9 rfl⟩

theorem simaCycle_pause (now : ℤ) (d : DriverState) (h : d.tm.state = .RUNNING) :
    simaCycle ⟨now, [], some .pause⟩ d =
      ({ d with tm := { drain d.tm with state := .PAUSED }, pausedAt := now },
        some true) := by
  unfold simaCycle applyCmd
  dsimp only [submitAll, List.foldl]
  rw [if_pos (show (drain d.tm).state = .RUNNING from h)]
  rw [if_neg (by simp), if_neg (by simp)]

/-- An idle machine whose driver has not started. -/
def dIdleC5 : DriverState :=
  { tm := { eventQueue := emptyQueue, t := 0, cycleTime := 10, state := .IDLE,
            speed := 1, events := [], log := [] },
    pausedAt := 0, offset := 0, start := 0, live := false }

/-- C5: each control method checks the transition table before sending its
command, so any (state, command) pair outside the table returns false and
leaves the driver state (state, speed, t, queue and all) untouched; and on a
live running machine Pause acknowledges true once and false the second
time. -/
theorem invalidTransitionsRejected (d : DriverState) (now : ℤ) :
    (d.tm.state ≠ .RUNNING → simaPause now d = (false, d)) ∧
    (d.tm.state ≠ .PAUSED → simaResume now d = (false, d)) ∧
    (d.tm.state ≠ .IDLE → simaStart now d = (false, d)) ∧
    (d.tm.state ≠ .RUNNING ∧ d.tm.state ≠ .PAUSED →
      simaStop now d = (false, d)) ∧
    (DriverLive d → d.tm.state = .RUNNING → ∀ now2 : ℤ,
      (simaPause now d).1 = true ∧
      (simaPause now2 (simaPause now d).2).1 = false) := by
  refine ⟨?_, ?_, ?_, ?_, ?_⟩
  · intro h
    unfold simaPause
    rw [if_pos h]
  · intro h
    unfold simaResume
    rw [if_pos h]
  · intro h
    unfold simaStart
    rw [if_pos h]
  · intro h
    unfold simaStop
    rw [if_pos h]
  · intro hdl hrun now2
    have h1 : simaPause now d =
        (true, { d with tm := { drain d.tm with state := .PAUSED },
                        pausedAt := now }) := by
      unfold simaPause
      rw [if_neg (by simp [hrun]), simaCycle_pause now d hrun]
      rfl
    refine ⟨by rw [h1], ?_⟩
    rw [h1]
    unfold simaPause
    rw [if_pos (by simp)]

theorem invalidTransitionsRejectedWitness :
    simaPause 3 dIdleC5 = (false, dIdleC5) ∧
    (simaPause 1 dStarvedC9).1 = true ∧
    (simaPause 2 (simaPause 1 dStarvedC9).2).1 = false :=
  ⟨(invalidTransitionsRejected dIdleC5 3).1 (by decide),
   ((invalidTransitionsRejected dStarvedC9 1).2.2.2.2 (by decide) rfl 2).1,
   ((invalidTransitionsRejected dStarvedC9 1).2.2.2.2 (by decide) rfl 2).2⟩

theorem deadCycle (inp : CycleInput) (d : DriverState) (hl : d.live = false) :
    simaRunCycle inp d = { d with tm := submitAll d.tm inp.scheds } := by
  unfold simaRunCycle
  rw [if_neg (by simp [hl])]

theorem deadCycles (inps : List CycleInput) : ∀ d : DriverState,
    d.live = false →
    (simaRunCycles d inps).tm.state = d.tm.state ∧
    (simaRunCycles d inps).tm.log = d.tm.log ∧
    (simaRunCycles d inps).tm.t = d.tm.t ∧
    (simaRunCycles d inps).tm.speed = d.tm.speed ∧
    (simaRunCycles d inps).tm.eventQueue = d.tm.eventQueue ∧
    (simaRunCycles d inps).live = false := by
  induction inps with
  | nil =>
    intro d hl
    exact ⟨rfl, rfl, rfl, rfl, rfl, hl⟩
  | cons i rest ih =>
    intro d hl
    have hone := deadCycle i d hl
    have hnext : simaRunCycles d (i :: rest) =
        simaRunCycles (simaRunCycle i d) rest := rfl
    have hlive2 : (simaRunCycle i d).live = false := by rw [hone]; exact hl
    obtain ⟨h1, h2, h3, h4, h5, h6⟩ := ih (simaRunCycle i d) hlive2
    obtain ⟨f1, f2, f3, f4, f5⟩ := submitAll_fields i.scheds d.tm
    rw [hnext]
    refine ⟨?_, ?_, ?_, ?_, ?_, h6⟩
    · rw [h1, hone]
      exact f1
    · rw [h2, hone]
      exact f3
    · rw [h3, hone]
      exact f2
    · rw [h4, hone]
      exact f4
    · rw [h5, hone]
      exact f5

/-- C3: once the machine is Stopped its driver goroutine has exited, so any
number of further ticks executes no event and changes neither the state nor
the clock, the speed or the queue; and Start, Pause, Resume and Stop are all
rejected with false, leaving the driver state untouched.  Stopped is
therefore entered at most once and is permanent. -/
theorem terminalStopped (d : DriverState) (hdl : DriverLive d)
    (hs : d.tm.state = .STOPPED) :
    (∀ inps, (simaRunCycles d inps).tm.state = .STOPPED ∧
      (simaRunCycles d inps).tm.log = d.tm.log ∧
      (simaRunCycles d inps).tm.t = d.tm.t ∧
      (simaRunCycles d inps).tm.speed = d.tm.speed ∧
      (simaRunCycles d inps).tm.eventQueue = d.tm.eventQueue ∧
      (simaRunCycles d inps).live = false) ∧
    (∀ now, simaStart now d = (false, d)) ∧
    (∀ now, simaPause now d = (false, d)) ∧
    (∀ now, simaResume now d = (false, d)) ∧
    (∀ now, simaStop now d = (false, d)) := by
  have hlf : d.live = false := by
    rcases Bool.eq_false_or_eq_true d.live with h | h
    · rcases hdl.mp h with h2 | h2
      · rw [hs] at h2
        exact absurd h2 (by simp)
      · rw [hs] at h2
        exact absurd h2 (by simp)
    · exact h
  refine ⟨?_, ?_, ?_, ?_, ?_⟩
  · intro inps
    obtain ⟨h1, h2, h3, h4, h5, h6⟩ := deadCycles inps d hlf
    exact ⟨by rw [h1, hs], h2, h3, h4, h5, h6⟩
  · intro now
    unfold simaStart
    rw [if_pos (by rw [hs]; simp)]
  · intro now
    unfold simaPause
    rw [if_pos (by rw [hs]; simp)]
  · intro now
    unfold simaResume
    rw [if_pos (by rw [hs]; simp)]
  · intro now
    unfold simaStop
    rw [if_pos (by rw [hs]; simp)]

/-- A stopped machine with a dead driver. -/
def dStoppedC3 : DriverState :=
  { tm := { eventQueue := emptyQueue, t := 7, cycleTime := 10,
            state := .STOPPED, speed := 1, events := [], log := [] },
    pausedAt := 0, offset := 0, start := 0, live := false }

theorem terminalStoppedWitness :
    (simaRunCycles dStoppedC3 [⟨5, [], none⟩, ⟨6, [], some .pause⟩]).tm.state
        = .STOPPED ∧
    simaStart 9 dStoppedC3 = (false, dStoppedC3) ∧
    simaStop 9 dStoppedC3 = (false, dStoppedC3) :=
  ⟨((terminalStopped dStoppedC3 (by decide) rfl).1
      [⟨5, [], none⟩, ⟨6, [], some .pause⟩]).1,
   (terminalStopped dStoppedC3 (by decide) rfl).2.1 9,
   (terminalStopped dStoppedC3 (by decide) rfl).2.2.2.2 9⟩

/-- C9 counterexample: a running core driver whose queue is empty at the
advance phase does not keep looping: the bare return fires, the goroutine is
gone (no further cycle will drain events or process commands) and the state
is left at RUNNING. -/
theorem drain_of_empty {tm : TM} (h : tm.events = []) : drain tm = tm := by
  cases tm
  dsimp only [drain]
  simp only at h
  rw [h]
  rfl

theorem nextT_none_of_empty {q : EventQueue} (h : q.size = 0) :
    nextT q = none := by
  unfold nextT
  rw [if_neg (by omega)]

/-- C9 counterexample: a running core driver whose queue is empty at the
advance phase does not keep looping: the bare return fires, the goroutine is
gone (no further cycle will drain events or process commands) and the state
is left at RUNNING. -/
theorem coreDriverDiesOnEmptyQueue :
    (coreCycle ⟨10, [], []⟩ dStarvedC9).2 = .starved ∧
    (coreCycle ⟨10, [], []⟩ dStarvedC9).1.live = false ∧
    (coreCycle ⟨10, [], []⟩ dStarvedC9).1.tm.state = .RUNNING := by
  unfold coreCycle
  dsimp only [submitAll, List.foldl, coreCmds]
  rw [drain_of_empty rfl]
  rw [if_pos (show dStarvedC9.tm.state = TMState.RUNNING from rfl)]
  rw [advance_empty (@nextT_none_of_empty dStarvedC9.tm.eventQueue rfl)]
  exact ⟨rfl, rfl, rfl⟩

/-- C9 (amended): when the advance phase finds nothing to run, the sima
driver merely ends the phase and keeps looping, the cycle leaving the state
untouched; the core driver instead returns out of run() on an empty queue,
terminating the goroutine with the state left at RUNNING, so only the
minimum-time-at-or-above-budget case keeps looping there. -/
theorem emptyQueueAdvancePhase (d : DriverState) (now : ℤ)
    (hev : d.tm.events = []) (hq : d.tm.eventQueue.size = 0)
    (hl : d.live = true) :
    (simaCycle ⟨now, [], none⟩ d).1 = d ∧
    (simaRunCycle ⟨now, [], none⟩ d).live = true ∧
    (d.tm.state = .RUNNING →
      (coreCycle ⟨now, [], []⟩ d).2 = .starved ∧
      (coreCycle ⟨now, [], []⟩ d).1.live = false ∧
      (coreCycle ⟨now, [], []⟩ d).1.tm = d.tm) := by
  have hbase : (simaCycle ⟨now, [], none⟩ d).1 = d := by
    unfold simaCycle
    dsimp only [submitAll, List.foldl]
    rw [drain_of_empty hev]
    split
    · rw [advance_empty (nextT_none_of_empty hq)]
    · rfl
  refine ⟨hbase, ?_, ?_⟩
  · unfold simaRunCycle
    rw [if_pos hl, hbase]
    exact hl
  · intro hrun
    unfold coreCycle
    dsimp only [submitAll, List.foldl, coreCmds]
    rw [drain_of_empty hev]
    rw [if_neg (by simp), if_pos hrun]
    rw [advance_empty (nextT_none_of_empty hq)]
    exact ⟨rfl, rfl, rfl⟩

theorem emptyQueueAdvancePhaseWitness :
    (simaCycle ⟨10, [], none⟩ dStarvedC9).1 = dStarvedC9 ∧
    (simaRunCycle ⟨10, [], none⟩ dStarvedC9).live = true :=
  ⟨(emptyQueueAdvancePhase dStarvedC9 10 rfl rfl rfl).1,
   (emptyQueueAdvancePhase dStarvedC9 10 rfl rfl rfl).2.1⟩

theorem applyCmd_frame (now : ℤ) (tm : TM) (p o : ℤ) (c : Cmd) :
    (applyCmd now tm p o c).tm.log = tm.log ∧
    (applyCmd now tm p o c).tm.t = tm.t ∧
    (applyCmd now tm p o c).tm.eventQueue = tm.eventQueue ∧
    (applyCmd now tm p o c).tm.events = tm.events := by
  cases c with
  | pause => by_cases h : tm.state = .RUNNING <;> simp [applyCmd, h]
  | resume => by_cases h : tm.state = .PAUSED <;> simp [applyCmd, h]
  | stop => exact ⟨rfl, rfl, rfl, rfl⟩
  | setSpeed v => exact ⟨rfl, rfl, rfl, rfl⟩

theorem coreCmds_frame (cmds : List Cmd) : ∀ (now : ℤ) (tm : TM) (p o : ℤ),
    (coreCmds now tm p o cmds).1.log = tm.log ∧
    (coreCmds now tm p o cmds).1.t = tm.t ∧
    (coreCmds now tm p o cmds).1.eventQueue = tm.eventQueue ∧
    (coreCmds now tm p o cmds).1.events = tm.events := by
  induction cmds with
  | nil =>
    intro now tm p o
    exact ⟨rfl, rfl, rfl, rfl⟩
  | cons c rest ih =>
    intro now tm p o
    obtain ⟨a1, a2, a3, a4⟩ := applyCmd_frame now tm p o c
    unfold coreCmds
    dsimp only
    split
    · exact ⟨a1, a2, a3, a4⟩
    · obtain ⟨b1, b2, b3, b4⟩ := ih now (applyCmd now tm p o c).tm
        (applyCmd now tm p o c).pausedAt (applyCmd now tm p o c).offset
      exact ⟨b1.trans a1, b2.trans a2, b3.trans a3, b4.trans a4⟩

/-- C2: the driver records the pause timestamp on PAUSE, adds now - pausedAt
to the cumulative offset on RESUME, and in each core cycle the events it
executes all have times strictly below the budget
(now - tReal_start - tReal_offset) * speed; nothing executes unless the state
is RUNNING after command processing. -/
theorem pauseResumeBudget :
    (∀ (now : ℤ) (tm : TM) (p o : ℤ), tm.state = .RUNNING →
      applyCmd now tm p o .pause =
        ⟨{ tm with state := .PAUSED }, now, o, true, false⟩) ∧
    (∀ (now : ℤ) (tm : TM) (p o : ℤ), tm.state = .PAUSED →
      applyCmd now tm p o .resume =
        ⟨{ tm with state := .RUNNING }, p, o + (now - p), true, false⟩) ∧
    (∀ (inp : CoreCycleInput) (d : DriverState), ∃ l,
      (coreCycle inp d).1.tm.log = d.tm.log ++ l ∧
      (∀ e ∈ l, e.t <
        ((inp.now - d.start - (coreCycle inp d).1.offset : ℤ) : ℚ) *
          (coreCycle inp d).1.tm.speed) ∧
      ((coreCycle inp d).1.tm.state ≠ .RUNNING → l = [])) := by
  refine ⟨?_, ?_, ?_⟩
  · intro now tm p o h
    unfold applyCmd
    rw [if_pos h]
  · intro now tm p o h
    unfold applyCmd
    rw [if_pos h]
  · intro inp d
    have hlog0 : (drain (submitAll d.tm inp.scheds)).log = d.tm.log := by
      show (submitAll d.tm inp.scheds).log = d.tm.log
      exact (submitAll_fields inp.scheds d.tm).2.2.1
    have hframe := coreCmds_frame inp.cmds inp.now
      (drain (submitAll d.tm inp.scheds)) d.pausedAt d.offset
    have hlog1 : (coreCmds inp.now (drain (submitAll d.tm inp.scheds))
        d.pausedAt d.offset inp.cmds).1.log = d.tm.log := by
      rw [hframe.1, hlog0]
    unfold coreCycle
    dsimp only
    split
    · exact ⟨[], by simp [hlog1], by simp, fun _ => rfl⟩
    · split
      · rename_i hrun
        obtain ⟨l, hl, hb, hstate, hspeed⟩ := advance_spec
          (inp.now - d.start - (coreCmds inp.now (drain (submitAll d.tm
            inp.scheds)) d.pausedAt d.offset inp.cmds).2.2.1)
          (coreCmds inp.now (drain (submitAll d.tm inp.scheds))
            d.pausedAt d.offset inp.cmds).1
        split
        · exact ⟨l, by rw [hl, hlog1],
            fun e he => by rw [hspeed]; exact hb e he,
            fun hns => absurd (hstate.trans hrun) hns⟩
        · exact ⟨l, by rw [hl, hlog1],
            fun e he => by rw [hspeed]; exact hb e he,
            fun hns => absurd (hstate.trans hrun) hns⟩
      · exact ⟨[], by simp [hlog1], by simp, fun _ => rfl⟩

theorem pauseResumeBudgetWitness :
    applyCmd 4 tmStarvedC9 0 0 .pause =
      ⟨{ tmStarvedC9 with state := .PAUSED }, 4, 0, true, false⟩ ∧
    applyCmd 9 { tmStarvedC9 with state := .PAUSED } 4 0 .resume =
      ⟨{ { tmStarvedC9 with state := .PAUSED } with state := .RUNNING },
        4, 0 + (9 - 4), true, false⟩ ∧
    (∃ l, (coreCycle ⟨10, [], []⟩ dStarvedC9).1.tm.log =
        dStarvedC9.tm.log ++ l ∧
      (∀ e ∈ l, e.t <
        ((10 - dStarvedC9.start - (coreCycle ⟨10, [], []⟩ dStarvedC9).1.offset :
          ℤ) : ℚ) * (coreCycle ⟨10, [], []⟩ dStarvedC9).1.tm.speed) ∧
      ((coreCycle ⟨10, [], []⟩ dStarvedC9).1.tm.state ≠ .RUNNING → l = [])) :=
  ⟨pauseResumeBudget.1 4 tmStarvedC9 0 0 rfl,
   pauseResumeBudget.2.1 9 { tmStarvedC9 with state := .PAUSED } 4 0 rfl,
   pauseResumeBudget.2.2 ⟨10, [], []⟩ dStarvedC9⟩

/-- C4: with a non-empty heap-shaped queue, Step pops exactly the queue
minimum, sets the clock to exactly its time, logs (executes) it exactly
once, and before returning moves every event pending in the submission
channel, along with whatever the callback itself scheduled, into the queue,
leaving the channel empty. -/
theorem stepDeterminism (tm : TM) (hheap : IsHeap tm.eventQueue)
    (hsz : 0 < tm.eventQueue.size) :
    ∃ ev tm2 q1,
      Step tm = some tm2 ∧
      ev = getEv tm.eventQueue 0 ∧
      contents tm.eventQueue = ev ::ₘ contents q1 ∧
      (∀ x ∈ contents tm.eventQueue, ev.t ≤ x.t) ∧
      tm2.t = ev.t ∧
      tm2.log = tm.log ++ [ev] ∧
      tm2.events = [] ∧
      contents tm2.eventQueue =
        contents q1 + (tm.events : Multiset Event) +
          ((schedOf ev.t ev.f : List Event) : Multiset Event) := by
  obtain ⟨tm2, hs⟩ := step_isSome hsz
  obtain ⟨ev, q1, hq, hev, hcont, ht2, hlog, hev2, _, _, _, hcont2, _, _, _⟩ :=
    step_fields hs
  refine ⟨ev, tm2, q1, hs, hev, hcont, ?_, ht2, hlog, hev2, hcont2⟩
  intro x hx
  rw [hev]
  exact root_min hheap x hx

/-- A machine holding two queued events and one buffered submission. -/
def tmTwoC4 : TM :=
  { eventQueue := #[⟨3, .nil⟩, ⟨5, .nil⟩], t := 0, cycleTime := 10,
    state := .RUNNING, speed := 1, events := [⟨7, .nil⟩], log := [] }

theorem stepDeterminismWitness :
    ∃ ev tm2 q1,
      Step tmTwoC4 = some tm2 ∧
      ev = getEv tmTwoC4.eventQueue 0 ∧
      contents tmTwoC4.eventQueue = ev ::ₘ contents q1 ∧
      (∀ x ∈ contents tmTwoC4.eventQueue, ev.t ≤ x.t) ∧
      tm2.t = ev.t ∧
      tm2.log = tmTwoC4.log ++ [ev] ∧
      tm2.events = [] ∧
      contents tm2.eventQueue =
        contents q1 + (tmTwoC4.events : Multiset Event) +
          ((schedOf ev.t ev.f : List Event) : Multiset Event) :=
  stepDeterminism tmTwoC4 (by decide) (by decide)

/-- C1: on any queue reachable by the public operations, next removes and
returns an element of minimum time among those stored, the remaining
contents are exactly the stored contents minus that occurrence, and the
result is again reachable, so successive removals come out in non-decreasing
time order. -/
theorem timeOrdering :
    ∀ q, Reachable q → ∀ e q2, next q = some (e, q2) →
      e ∈ contents q ∧
      (∀ x ∈ contents q, e.t ≤ x.t) ∧
      contents q = e ::ₘ contents q2 ∧
      Reachable q2 := by
  intro q hq e q2 hnext
  have hheap := reachable_isHeap hq
  rcases Nat.eq_zero_or_pos q.size with h0 | h0
  · rw [next_none h0] at hnext
    exact absurd hnext (by simp)
  · obtain ⟨q1, hq1, hcont, _, _⟩ := next_spec h0
    rw [hnext] at hq1
    simp only [Option.some.injEq, Prod.mk.injEq] at hq1
    obtain ⟨he, hqq⟩ := hq1
    refine ⟨?_, ?_, ?_, Reachable.next hq hnext⟩
    · rw [hcont, he]
      exact Multiset.mem_cons_self _ _
    · intro x hx
      rw [he]
      exact root_min hheap x hx
    · rw [hcont, he, hqq]

theorem addTwo_eval :
    add (add emptyQueue ⟨5, .nil⟩) ⟨3, .nil⟩ = #[⟨3, .nil⟩, ⟨5, .nil⟩] := by
  have h1 : add emptyQueue ⟨5, .nil⟩ = #[⟨5, .nil⟩] := by
    show up #[⟨5, .nil⟩] 0 = #[⟨5, .nil⟩]
    rw [up, if_pos (Or.inl parent_zero)]
  rw [h1]
  show up #[⟨5, .nil⟩, ⟨3, .nil⟩] 1 = #[⟨3, .nil⟩, ⟨5, .nil⟩]
  rw [up, if_neg (show ¬ (parent 1 = 1 ∨
    ¬ (getEv #[⟨5, .nil⟩, ⟨3, .nil⟩] 1).t <
      (getEv #[⟨5, .nil⟩, ⟨3, .nil⟩] (parent 1)).t) from by decide)]
  show up #[⟨3, .nil⟩, ⟨5, .nil⟩] 0 = #[⟨3, .nil⟩, ⟨5, .nil⟩]
  rw [up, if_pos (Or.inl parent_zero)]

theorem nextTwo_eval :
    next (#[⟨3, .nil⟩, ⟨5, .nil⟩] : EventQueue) =
      some (⟨3, .nil⟩, #[⟨5, .nil⟩]) := by
  unfold next
  rw [if_neg (show ¬ ((#[⟨3, .nil⟩, ⟨5, .nil⟩] : EventQueue).size = 0)
    from by decide)]
  show some (getEv (down #[⟨5, .nil⟩, ⟨3, .nil⟩] 0 1) 1,
    (down #[⟨5, .nil⟩, ⟨3, .nil⟩] 0 1).pop) = some (⟨3, .nil⟩, #[⟨5, .nil⟩])
  rw [down, dif_neg (show ¬ (2 * 0 + 1 < 1) from by decide)]
  rfl

/-- The specification's monotone-clock contract between two machine
snapshots, written from the spec's words: the simulation time never
decreases, the executed events appear appended to the log, the clock is
unchanged when nothing executed, and otherwise equals the time of the last
executed event. -/
def Evolves (tm tm2 : TM) : Prop :=
  tm.t ≤ tm2.t ∧
  ∃ l, tm2.log = tm.log ++ l ∧
    (l = [] → tm2.t = tm.t) ∧
    (∀ x, l.getLast? = some x → tm2.t = x.t)

theorem evolves_refl (tm : TM) : Evolves tm tm := by
  refine ⟨le_refl _, [], by simp, fun _ => rfl, ?_⟩
  intro x hx
  simp at hx

theorem evolves_trans {a b c : TM} (h1 : Evolves a b) (h2 : Evolves b c) :
    Evolves a c := by
  obtain ⟨ht1, l1, hl1, he1, hx1⟩ := h1
  obtain ⟨ht2, l2, hl2, he2, hx2⟩ := h2
  refine ⟨le_trans ht1 ht2, l1 ++ l2,
    by rw [hl2, hl1, List.append_assoc], ?_, ?_⟩
  · intro h
    rcases List.append_eq_nil.mp h with ⟨ha, hb⟩
    rw [he2 hb, he1 ha]
  · intro x hx
    cases l2 with
    | nil =>
      rw [List.append_nil] at hx
      rw [he2 rfl]
      exact hx1 x hx
    | cons y t =>
      have hcons : (l1 ++ y :: t).getLast? = (y :: t).getLast? := by
        rw [List.getLast?_append]
        cases hyt : (y :: t).getLast? with
        | none => exact absurd hyt (by simp)
        | some z => rfl
      rw [hcons] at hx
      exact hx2 x hx

theorem evolves_frame {tm tm2 : TM} (ht : tm2.t = tm.t)
    (hl : tm2.log = tm.log) : Evolves tm tm2 := by
  refine ⟨le_of_eq ht.symm, [], by rw [hl, List.append_nil], fun _ => ht, ?_⟩
  intro x hx
  simp at hx

theorem wf_frame {tm tm2 : TM} (hq : tm2.eventQueue = tm.eventQueue)
    (ht : tm2.t = tm.t) (he : tm2.events = tm.events)
    (hl : tm2.log = tm.log) (h : WFtm tm) : WFtm tm2 := by
  unfold WFtm at h ⊢
  rw [hq, ht, he, hl]
  exact h

theorem schedule_wf {tm : TM} (h : WFtm tm) (dt : ℚ) (f : Act) :
    WFtm (Schedule tm dt f) := by
  obtain ⟨h1, h2, h3, h4, h5⟩ := h
  refine ⟨h1, h2, ?_, h4, h5⟩
  intro e he
  have he2 : e ∈ tm.events ++ [⟨tm.t + (if dt < 0 then 0 else dt), f⟩] := he
  show tm.t ≤ e.t
  rcases List.mem_append.mp he2 with h6 | h6
  · exact h3 e h6
  · have h7 : e = ⟨tm.t + (if dt < 0 then 0 else dt), f⟩ :=
      List.mem_singleton.mp h6
    rw [h7]
    show tm.t ≤ tm.t + (if dt < 0 then 0 else dt)
    split
    · simp
    · rename_i hdt
      have h8 : (0:ℚ) ≤ dt := le_of_not_lt hdt
      linarith

theorem submitAll_wf (scheds : List (ℚ × Act)) : ∀ tm : TM, WFtm tm →
    WFtm (submitAll tm scheds) := by
  induction scheds with
  | nil =>
    intro tm h
    exact h
  | cons p rest ih =>
    intro tm h
    exact ih (Schedule tm p.1 p.2) (schedule_wf h p.1 p.2)

theorem drain_wf {tm : TM} (h : WFtm tm) : WFtm (drain tm) := by
  obtain ⟨h1, h2, h3, h4, h5⟩ := h
  unfold WFtm drain
  dsimp only
  refine ⟨isHeap_foldl_add _ _ h1, ?_, ?_, h4, h5⟩
  · intro e he
    rw [contents_foldl_add] at he
    rcases Multiset.mem_add.mp he with h6 | h6
    · exact h2 e h6
    · exact h3 e (by simpa using h6)
  · intro e he
    exact absurd he (by simp)

theorem step_wf {tm tm2 : TM} (hwf : WFtm tm) (hch : tm.events = [])
    (h : Step tm = some tm2) :
    WFtm tm2 ∧ Evolves tm tm2 ∧ tm2.events = [] := by
  obtain ⟨h1, h2, h3, h4, h5⟩ := hwf
  obtain ⟨ev, q1, hq, hev, hcont, ht2, hlog, hev2, hst, hsp, hcy, hcont2,
    hq1sz, hheap1, hheap2⟩ := step_fields h
  have hroot : tm.t ≤ ev.t := by
    have hm : ev ∈ contents tm.eventQueue := by
      rw [hcont]
      exact Multiset.mem_cons_self _ _
    exact h2 ev hm
  have hwf2 : WFtm tm2 := by
    refine ⟨hheap2 h1, ?_, ?_, ?_, ?_⟩
    · intro e he
      rw [hcont2, hch] at he
      simp only [Multiset.coe_nil, add_zero] at he
      rw [ht2]
      rcases Multiset.mem_add.mp he with h6 | h6
      · have hm : e ∈ contents tm.eventQueue := by
          rw [hcont]
          exact Multiset.mem_cons_of_mem h6
        have h7 := root_min h1 e hm
        rw [← hev] at h7
        exact h7
      · exact schedOf_ge ev.f ev.t e (by simpa using h6)
    · intro e he
      rw [hev2] at he
      exact absurd he (by simp)
    · intro e he
      rw [hlog] at he
      rw [ht2]
      rcases List.mem_append.mp he with h6 | h6
      · exact le_trans (h4 e h6) hroot
      · rw [List.mem_singleton.mp h6]
    · rw [hlog, List.map_append]
      refine List.pairwise_append.mpr ⟨h5, List.sorted_singleton _, ?_⟩
      intro a ha b hb
      simp only [List.map_cons, List.map_nil, List.mem_singleton] at hb
      obtain ⟨x, hx, hxa⟩ := List.mem_map.mp ha
      rw [hb, ← hxa]
      exact le_trans (h4 x hx) hroot
  refine ⟨hwf2, ⟨?_, [ev], hlog, by simp, ?_⟩, hev2⟩
  · rw [ht2]
    exact hroot
  · intro x hx
    have hx2 : some ev = some x := hx
    injection hx2 with hx3
    rw [ht2, hx3]

theorem advance_wf (dtReal : ℤ) : ∀ tm : TM, WFtm tm → tm.events = [] →
    WFtm (advance dtReal tm).1 ∧ Evolves tm (advance dtReal tm).1 ∧
      (advance dtReal tm).1.events = [] := by
  refine advance.induct dtReal _ ?_ ?_ ?_ ?_
  · intro tm hnone hwf hch
    rw [advance_empty hnone]
    exact ⟨hwf, evolves_refl tm, hch⟩
  · intro tm tNext hsome hlt hstep
    have hsz : 0 < tm.eventQueue.size := by
      unfold nextT at hsome
      split at hsome
      · assumption
      · exact absurd hsome (by simp)
    obtain ⟨tm2, hs2⟩ := step_isSome hsz
    rw [hs2] at hstep
    exact absurd hstep (by simp)
  · intro tm tNext hsome hlt tm2 hstep ih hwf hch
    rw [advance_step hsome hlt hstep]
    obtain ⟨hwf2, hev, hch2⟩ := step_wf hwf hch hstep
    obtain ⟨hwf3, hev3, hch3⟩ := ih hwf2 hch2
    exact ⟨hwf3, evolves_trans hev hev3, hch3⟩
  · intro tm tNext hsome hge hwf hch
    rw [advance_break hsome hge]
    exact ⟨hwf, evolves_refl tm, hch⟩

theorem coreCmds_wf (cmds : List Cmd) (now : ℤ) (tm : TM) (p o : ℤ)
    (h : WFtm tm) : WFtm (coreCmds now tm p o cmds).1 := by
  obtain ⟨a1, a2, a3, a4⟩ := coreCmds_frame cmds now tm p o
  exact wf_frame a3 a2 a4 a1 h

theorem simaCycle_wf (inp : CycleInput) (d : DriverState) (h : WFtm d.tm) :
    WFtm (simaCycle inp d).1.tm ∧ Evolves d.tm (simaCycle inp d).1.tm := by
  obtain ⟨now, scheds, cmd⟩ := inp
  have hsubf := submitAll_fields scheds d.tm
  have hwf0 : WFtm (drain (submitAll d.tm scheds)) :=
    drain_wf (submitAll_wf scheds d.tm h)
  have hev0 : Evolves d.tm (drain (submitAll d.tm scheds)) :=
    evolves_frame (show (drain (submitAll d.tm scheds)).t = d.tm.t
        from hsubf.2.1)
      (show (drain (submitAll d.tm scheds)).log = d.tm.log from hsubf.2.2.1)
  have hch0 : (drain (submitAll d.tm scheds)).events = [] := rfl
  unfold simaCycle
  dsimp only
  cases cmd with
  | none =>
    dsimp only
    split
    · obtain ⟨w1, w2, w3⟩ := advance_wf (now - d.start - d.offset)
        (drain (submitAll d.tm scheds)) hwf0 hch0
      exact ⟨w1, evolves_trans hev0 w2⟩
    · exact ⟨hwf0, hev0⟩
  | some c =>
    dsimp only
    obtain ⟨a1, a2, a3, a4⟩ := applyCmd_frame now
      (drain (submitAll d.tm scheds)) d.pausedAt d.offset c
    have hwf1 : WFtm (applyCmd now (drain (submitAll d.tm scheds))
        d.pausedAt d.offset c).tm := wf_frame a3 a2 a4 a1 hwf0
    have hev1 : Evolves d.tm (applyCmd now (drain (submitAll d.tm scheds))
        d.pausedAt d.offset c).tm :=
      evolves_trans hev0 (evolves_frame a2 a1)
    have hch1 : (applyCmd now (drain (submitAll d.tm scheds))
        d.pausedAt d.offset c).tm.events = [] := by
      rw [a4]
      exact rfl
    split
    · exact ⟨hwf1, hev1⟩
    · split
      · obtain ⟨w1, w2, w3⟩ := advance_wf (now - d.start - (applyCmd now
          (drain (submitAll d.tm scheds)) d.pausedAt d.offset c).offset)
          (applyCmd now (drain (submitAll d.tm scheds)) d.pausedAt d.offset
            c).tm hwf1 hch1
        exact ⟨w1, evolves_trans hev1 w2⟩
      · exact ⟨hwf1, hev1⟩

theorem coreCycle_wf (inp : CoreCycleInput) (d : DriverState) (h : WFtm d.tm) :
    WFtm (coreCycle inp d).1.tm ∧ Evolves d.tm (coreCycle inp d).1.tm := by
  obtain ⟨now, scheds, cmds⟩ := inp
  have hsubf := submitAll_fields scheds d.tm
  have hwf0 : WFtm (drain (submitAll d.tm scheds)) :=
    drain_wf (submitAll_wf scheds d.tm h)
  have hev0 : Evolves d.tm (drain (submitAll d.tm scheds)) :=
    evolves_frame (show (drain (submitAll d.tm scheds)).t = d.tm.t
        from hsubf.2.1)
      (show (drain (submitAll d.tm scheds)).log = d.tm.log from hsubf.2.2.1)
  obtain ⟨a1, a2, a3, a4⟩ := coreCmds_frame cmds now
    (drain (submitAll d.tm scheds)) d.pausedAt d.offset
  have hwf1 : WFtm (coreCmds now (drain (submitAll d.tm scheds)) d.pausedAt
      d.offset cmds).1 := wf_frame a3 a2 a4 a1 hwf0
  have hev1 : Evolves d.tm (coreCmds now (drain (submitAll d.tm scheds))
      d.pausedAt d.offset cmds).1 := evolves_trans hev0 (evolves_frame a2 a1)
  have hch1 : (coreCmds now (drain (submitAll d.tm scheds)) d.pausedAt
      d.offset cmds).1.events = [] := by
    rw [a4]
    exact rfl
  unfold coreCycle
  dsimp only
  split
  · exact ⟨hwf1, hev1⟩
  · split
    · obtain ⟨w1, w2, w3⟩ := advance_wf (now - d.start - (coreCmds now
        (drain (submitAll d.tm scheds)) d.pausedAt d.offset cmds).2.2.1)
        (coreCmds now (drain (submitAll d.tm scheds)) d.pausedAt d.offset
          cmds).1 hwf1 hch1
      split
      · exact ⟨w1, evolves_trans hev1 w2⟩
      · exact ⟨w1, evolves_trans hev1 w2⟩
    · exact ⟨hwf1, hev1⟩

theorem applyOp_wf (d : DriverState) (op : Op) (hwf : WFtm d.tm)
    (hsafe : OpSafe d op) :
    WFtm (applyOp d op).tm ∧ Evolves d.tm (applyOp d op).tm := by
  cases op with
  | cycle inp =>
    show WFtm (simaRunCycle inp d).tm ∧ Evolves d.tm (simaRunCycle inp d).tm
    unfold simaRunCycle
    split
    · exact simaCycle_wf inp d hwf
    · have hf := submitAll_fields inp.scheds d.tm
      exact ⟨submitAll_wf inp.scheds d.tm hwf, evolves_frame hf.2.1 hf.2.2.1⟩
  | coreCyc inp =>
    show WFtm (if d.live then (coreCycle inp d).1
        else { d with tm := submitAll d.tm inp.scheds }).tm ∧
      Evolves d.tm (if d.live then (coreCycle inp d).1
        else { d with tm := submitAll d.tm inp.scheds }).tm
    split
    · exact coreCycle_wf inp d hwf
    · have hf := submitAll_fields inp.scheds d.tm
      exact ⟨submitAll_wf inp.scheds d.tm hwf, evolves_frame hf.2.1 hf.2.2.1⟩
  | stepOp =>
    have hch : d.tm.events = [] := hsafe
    show WFtm (clientStep d.tm) ∧ Evolves d.tm (clientStep d.tm)
    unfold clientStep
    rcases hs : Step d.tm with _ | tm2
    · exact ⟨hwf, evolves_refl _⟩
    · obtain ⟨w1, w2, w3⟩ := step_wf hwf hch hs
      exact ⟨w1, w2⟩
  | scheduleOp dt f =>
    exact ⟨schedule_wf hwf dt f, evolves_frame rfl rfl⟩
  | startOp now =>
    show WFtm ((simaStart now d).2).tm ∧ Evolves d.tm ((simaStart now d).2).tm
    unfold simaStart
    split
    · exact ⟨hwf, evolves_refl _⟩
    · exact ⟨wf_frame rfl rfl rfl rfl hwf, evolves_frame rfl rfl⟩
  | pauseOp now =>
    show WFtm ((simaPause now d).2).tm ∧ Evolves d.tm ((simaPause now d).2).tm
    unfold simaPause
    split
    · exact ⟨hwf, evolves_refl _⟩
    · exact simaCycle_wf ⟨now, [], some .pause⟩ d hwf
  | resumeOp now =>
    show WFtm ((simaResume now d).2).tm ∧
      Evolves d.tm ((simaResume now d).2).tm
    unfold simaResume
    split
    · exact ⟨hwf, evolves_refl _⟩
    · exact simaCycle_wf ⟨now, [], some .resume⟩ d hwf
  | stopOp now =>
    show WFtm ((simaStop now d).2).tm ∧ Evolves d.tm ((simaStop now d).2).tm
    unfold simaStop
    split
    · exact ⟨hwf, evolves_refl _⟩
    · exact simaCycle_wf ⟨now, [], some .stop⟩ d hwf
  | setSpeedOp now v =>
    show WFtm ((simaSetSpeed now v d).2).tm ∧
      Evolves d.tm ((simaSetSpeed now v d).2).tm
    exact simaCycle_wf ⟨now, [], some (.setSpeed (clampSpeed v))⟩ d hwf

/-- C7 (amended): over any trace of Schedule calls, sima driver cycles, core
driver cycles, control commands and direct Step calls made with a drained
submission channel, starting from a well-formed machine, the machine stays
well formed and the simulation clock evolves monotonically: T() never
decreases, the executed events appear appended to the log, and T() is
unchanged when the trace executed nothing and otherwise equals the time of
the last executed event.  The unamended claim, which also admits Step calls
while an older submission still sits in the channel, is refuted by
timeGoesBackward below. -/
theorem monotoneSimTime (ops : List Op) (d : DriverState) (hwf : WFtm d.tm)
    (hsafe : SafeTrace d ops) :
    WFtm (applyOps d ops).tm ∧ Evolves d.tm (applyOps d ops).tm := by
  induction ops generalizing d with
  | nil =>
    exact ⟨hwf, evolves_refl _⟩
  | cons op rest ih =>
    cases hsafe with
    | cons hop hrest =>
      obtain ⟨h1, h2⟩ := applyOp_wf d op hwf hop
      obtain ⟨h3, h4⟩ := ih (applyOp d op) h1 hrest
      exact ⟨h3, evolves_trans h2 h4⟩

theorem monotoneSimTimeWitness :
    WFtm dFresh.tm ∧ SafeTrace dFresh [Op.scheduleOp 10 Act.nil] ∧
      (WFtm (applyOps dFresh [Op.scheduleOp 10 Act.nil]).tm ∧
        Evolves dFresh.tm (applyOps dFresh [Op.scheduleOp 10 Act.nil]).tm) :=
  ⟨by decide, SafeTrace.cons trivial SafeTrace.nil,
    monotoneSimTime [Op.scheduleOp 10 Act.nil] dFresh (by decide)
      (SafeTrace.cons trivial SafeTrace.nil)⟩

/-- The states the opsBackPre / opsBack trace passes through, in order:
after Schedule(10), after the draining cycle, after Schedule(5), after the
first Step (clock at 10), after the second Step (clock back at 5). -/
def dC7a : DriverState :=
  { dFresh with tm := { tmFresh with events := [⟨10, Act.nil⟩] } }

def dC7b : DriverState :=
  { dFresh with tm := { tmFresh with eventQueue := #[⟨10, Act.nil⟩] } }

def dC7c : DriverState :=
  { dFresh with tm := { tmFresh with
      eventQueue := #[⟨10, Act.nil⟩], events := [⟨5, Act.nil⟩] } }

def dC7d : DriverState :=
  { dFresh with tm := { tmFresh with
      eventQueue := #[⟨5, Act.nil⟩], t := 10, log := [⟨10, Act.nil⟩] } }

def dC7e : DriverState :=
  { dFresh with tm := { tmFresh with
      eventQueue := #[], t := 5, log := [⟨10, Act.nil⟩, ⟨5, Act.nil⟩] } }

theorem addSingleton (e : Event) : add emptyQueue e = #[e] := by
  show up #[e] 0 = #[e]
  rw [up, if_pos (Or.inl parent_zero)]

theorem nextSingleton (e : Event) : next (#[e] : EventQueue) = some (e, #[]) := by
  unfold next
  rw [if_neg (show ¬ ((#[e] : EventQueue).size = 0) from by simp)]
  show some (getEv (down ((#[e] : EventQueue).swap! 0 0) 0 0) 0,
    (down ((#[e] : EventQueue).swap! 0 0) 0 0).pop) = some (e, #[])
  rw [down, dif_neg (show ¬ (2 * 0 + 1 < 0) from by decide)]
  rfl

/-- A cycle with no submissions and no command whose budget is below every
queued event only drains the channel. -/
theorem cycleDrainOnly (now : ℤ) (d : DriverState) (hl : d.live = true)
    (hrun : d.tm.state = TMState.RUNNING)
    (hbreak : ∀ tN, nextT (drain d.tm).eventQueue = some tN →
      ¬ tN < ((now - d.start - d.offset : ℤ) : ℚ) * d.tm.speed) :
    simaRunCycle ⟨now, [], none⟩ d = { d with tm := drain d.tm } := by
  unfold simaRunCycle
  rw [if_pos hl]
  unfold simaCycle
  dsimp only [submitAll, List.foldl]
  rw [if_pos (show (drain d.tm).state = TMState.RUNNING from hrun)]
  rcases hN : nextT (drain d.tm).eventQueue with _ | tN
  · rw [advance_empty hN]
  · rw [advance_break hN (hbreak tN hN)]

/-- C7 counterexample: the claim as stated quantifies over every legal
sequential interleaving of the public operations, including a direct Step
call while an earlier submission still sits in the events channel.  On the
trace Schedule(10); cycle (drains it, budget 0 runs nothing); Schedule(5);
Step(); Step() from a freshly started machine, the first Step pops the
queue minimum 10 without looking at the channel, so T() = 10, and the
second executes the event at 5: T() drops from 10 to 5. -/
theorem timeGoesBackward :
    (applyOps dFresh opsBackPre).tm.t = 10 ∧
    (applyOps dFresh opsBack).tm.t = 5 ∧
    ¬ (applyOps dFresh opsBackPre).tm.t ≤ (applyOps dFresh opsBack).tm.t := by
  have h1 : applyOp dFresh (Op.scheduleOp 10 Act.nil) = dC7a := by
    show ({ dFresh with tm := Schedule dFresh.tm 10 Act.nil } :
      DriverState) = dC7a
    have hs : Schedule dFresh.tm 10 Act.nil = dC7a.tm := by
      unfold Schedule
      dsimp only
      norm_num [dFresh, tmFresh, dC7a]
    rw [hs]
    rfl
  have hdrA : drain dC7a.tm = dC7b.tm := by
    show ({ dC7a.tm with
      eventQueue := add emptyQueue ⟨10, Act.nil⟩, events := [] } : TM)
        = dC7b.tm
    rw [addSingleton]
    rfl
  have hb : ∀ tN, nextT (drain dC7a.tm).eventQueue = some tN →
      ¬ tN < (((0:ℤ) - dC7a.start - dC7a.offset : ℤ) : ℚ) * dC7a.tm.speed := by
    intro tN hN
    rw [hdrA] at hN
    rw [show nextT dC7b.tm.eventQueue = some 10 from rfl] at hN
    have htN : (10:ℚ) = tN := by
      injection hN
    rw [← htN]
    norm_num [dC7a, dFresh, tmFresh]
  have h2 : applyOp dC7a (Op.cycle ⟨0, [], none⟩) = dC7b := by
    show simaRunCycle ⟨0, [], none⟩ dC7a = dC7b
    rw [cycleDrainOnly 0 dC7a rfl rfl hb, hdrA]
    rfl
  have h3 : applyOp dC7b (Op.scheduleOp 5 Act.nil) = dC7c := by
    show ({ dC7b with tm := Schedule dC7b.tm 5 Act.nil } :
      DriverState) = dC7c
    have hs : Schedule dC7b.tm 5 Act.nil = dC7c.tm := by
      unfold Schedule
      dsimp only
      norm_num [dC7b, dC7c, dFresh, tmFresh]
    rw [hs]
    rfl
  have hn1 : next dC7c.tm.eventQueue = some (⟨10, Act.nil⟩, (#[] : EventQueue)) :=
    nextSingleton ⟨10, Act.nil⟩
  have hstep1 : Step dC7c.tm = some dC7d.tm := by
    unfold Step
    rw [hn1]
    show some ({ dC7c.tm with
      eventQueue := add emptyQueue ⟨5, Act.nil⟩, t := 10,
      log := [⟨10, Act.nil⟩], events := [] } : TM) = some dC7d.tm
    rw [addSingleton]
    rfl
  have h4 : applyOp dC7c Op.stepOp = dC7d := by
    show ({ dC7c with tm := clientStep dC7c.tm } : DriverState) = dC7d
    unfold clientStep
    rw [hstep1]
    rfl
  have hn2 : next dC7d.tm.eventQueue = some (⟨5, Act.nil⟩, (#[] : EventQueue)) :=
    nextSingleton ⟨5, Act.nil⟩
  have hstep2 : Step dC7d.tm = some dC7e.tm := by
    unfold Step
    rw [hn2]
    rfl
  have h5 : applyOp dC7d Op.stepOp = dC7e := by
    show ({ dC7d with tm := clientStep dC7d.tm } : DriverState) = dC7e
    unfold clientStep
    rw [hstep2]
    rfl
  have hpre : applyOps dFresh opsBackPre = dC7d := by
    show applyOp (applyOp (applyOp (applyOp dFresh
      (Op.scheduleOp 10 Act.nil)) (Op.cycle ⟨0, [], none⟩))
      (Op.scheduleOp 5 Act.nil)) Op.stepOp = dC7d
    rw [h1, h2, h3, h4]
  have hfull : applyOps dFresh opsBack = dC7e := by
    show applyOp (applyOp (applyOp (applyOp (applyOp dFresh
      (Op.scheduleOp 10 Act.nil)) (Op.cycle ⟨0, [], none⟩))
      (Op.scheduleOp 5 Act.nil)) Op.stepOp) Op.stepOp = dC7e
    rw [h1, h2, h3, h4, h5]
  refine ⟨?_, ?_, ?_⟩
  · rw [hpre]
    rfl
  · rw [hfull]
    rfl
  · rw [hpre, hfull]
    show ¬ (10:ℚ) ≤ 5
    norm_num

theorem timeOrderingWitness :
    (⟨3, .nil⟩ : Event) ∈ contents (#[⟨3, .nil⟩, ⟨5, .nil⟩] : EventQueue) ∧
    (∀ x ∈ contents (#[⟨3, .nil⟩, ⟨5, .nil⟩] : EventQueue),
      (Event.mk 3 .nil).t ≤ x.t) ∧
    contents (#[⟨3, .nil⟩, ⟨5, .nil⟩] : EventQueue) =
      (⟨3, .nil⟩ : Event) ::ₘ contents (#[⟨5, .nil⟩] : EventQueue) ∧
    Reachable (#[⟨5, .nil⟩] : EventQueue) :=
  timeOrdering #[⟨3, .nil⟩, ⟨5, .nil⟩]
    (addTwo_eval ▸ Reachable.add _ (Reachable.add _ Reachable.empty))
    ⟨3, .nil⟩ #[⟨5, .nil⟩] nextTwo_eval

end Sima
